import Mathlib
/-!
Shallow embedding of the two tokenized state machines of the
verified-node-replication repository: the unbounded log
(src/nr/unbounded_log.rs) and the cyclic buffer (src/nr/cyclicbuffer.rs).

Verus `Map<K, V>` shards are modelled as functions `K → Option V`
(`dom.contains k` becomes `(m k).isSome`); `Seq<ReqId>` becomes `List ℕ`;
`nat` becomes `ℕ` and `int` becomes `ℤ`.  Each `transition!` block becomes a
constructor of an inductive step relation whose enabling conditions are the
`require` clauses together with the token-existence conditions of
`remove`/`have`; `assert`/`deposit`-safety obligations are proof obligations
in Verus, not enabling conditions, and are therefore not part of the step
relation.  Reachability is the reflexive-transitive closure of the step
relation from the `init!` states.
-/
set_option linter.unusedVariables false

/-- Point update of a finite map modelled as a function into `Option`
(the semantics of `remove k; add k => v` / `update` on a map shard). -/
def mupd {K V : Type} [DecidableEq K] (m : K → Option V) (k : K) (v : V) : K → Option V := fun k2 => if k2 = k then some v else m k2

/-- Key removal for a finite map modelled as a function into `Option`
(the semantics of a `remove` without a matching `add`). -/
def mdel {K V : Type} [DecidableEq K] (m : K → Option V) (k : K) : K → Option V := fun k2 => if k2 = k then none else m k2
namespace UnboundedLog

/-- Modelled from the spec: `LogEntry` (declared in the repository's types
module, which is not under src/): `{ op: UpdateOp, node_id: NodeId }`. -/
structure LogEntry (UOp : Type) where
  op : UOp
  node_id : ℕ

/-- The `ReadonlyState` from src/nr/unbounded_log.rs. -/
inductive ReadonlyState (ROp Ret : Type) where
  | init (op : ROp)
  | versionUpperBound (op : ROp) (version_upper_bound : ℕ)
  | readyToRead (op : ROp) (node_id : ℕ) (version_upper_bound : ℕ)
  | done (op : ROp) (ret : Ret) (node_id : ℕ) (version_upper_bound : ℕ)

/-- The `UpdateState` from src/nr/unbounded_log.rs. -/
inductive UpdateState (UOp Ret : Type) where
  | init (op : UOp)
  | placed (op : UOp) (idx : ℕ)
  | applied (ret : Ret) (idx : ℕ)
  | done (ret : Ret) (idx : ℕ)

/-- The `CombinerState` of the unbounded log (src/nr/unbounded_log.rs). -/
inductive CombinerState where
  | ready
  | placed (queued_ops : List ℕ)
  | loadedLocalVersion (queued_ops : List ℕ) (lversion : ℕ)
  | loop (queued_ops : List ℕ) (lversion : ℕ) (idx : ℕ) (global_tail : ℕ)
  | updatedVersion (queued_ops : List ℕ) (global_tail : ℕ)

/-- The fields of the `UnboundedLog` tokenized state machine. -/
structure State (UOp ROp Ret NRSt : Type) where
  num_replicas : ℕ
  log : ℕ → Option (LogEntry UOp)
  global_tail : ℕ
  replicas : ℕ → Option NRSt
  local_versions : ℕ → Option ℕ
  version_upper_bound : ℕ
  local_reads : ℕ → Option (ReadonlyState ROp Ret)
  local_updates : ℕ → Option (UpdateState UOp Ret)
  combiner : ℕ → Option CombinerState

/-- Transition labels of the `UnboundedLog` machine, one per `transition!`.
For `readonly_start`/`update_start`, the label carries the request id chosen
by `get_new_nat` (modelled from the spec: `get_new_nat`, in the repository's
utils module, which is not under src/, returns a value outside the given
domain; the freshness is an enabling condition of the step). -/
inductive Label (UOp ROp Ret : Type) where
  | readonly_start (rid : ℕ) (op : ROp)
  | readonly_read_ctail (rid : ℕ)
  | readonly_ready_to_read (rid : ℕ) (node_id : ℕ)
  | readonly_apply (rid : ℕ)
  | readonly_finish (rid : ℕ) (op : ROp) (version_upper_bound : ℕ) (node_id : ℕ) (ret : Ret)
  | update_start (rid : ℕ) (op : UOp)
  | update_place_ops_in_log_one (node_id : ℕ) (rid : ℕ)
  | update_done (rid : ℕ)
  | update_finish (rid : ℕ)
  | exec_trivial_start (node_id : ℕ)
  | exec_load_local_version (node_id : ℕ)
  | exec_load_global_head (node_id : ℕ)
  | exec_dispatch_local (node_id : ℕ)
  | exec_dispatch_remote (node_id : ℕ)
  | exec_update_version_upper_bound (node_id : ℕ)
  | exec_finish (node_id : ℕ)
end UnboundedLog
namespace UnboundedLog
section
variable {UOp ROp Ret NRSt : Type}

/-- The `init!{ initialize(number_of_nodes) }` state of the unbounded log. -/
def initState (nrInit : NRSt) (number_of_nodes : ℕ) : State UOp ROp Ret NRSt where
  num_replicas := number_of_nodes
  log := fun _ => none
  global_tail := 0
  replicas := fun n => if n < number_of_nodes then some nrInit else none
  local_versions := fun n => if n < number_of_nodes then some 0 else none
  version_upper_bound := 0
  local_reads := fun _ => none
  local_updates := fun _ => none
  combiner := fun n => if n < number_of_nodes then some .ready else none

/-- The step relation of the `UnboundedLog` machine, parameterized by the
replica interface (`NRState::read` / `NRState::update`, declared in the
repository's types module, which is not under src/; modelled from the spec as
a deterministic pair of functions). One constructor per `transition!` block
of src/nr/unbounded_log.rs. The source's `queued_ops.index(idx)` (a Verus
`Seq` access, defined only for `idx < len`) is embedded as `queued_ops.getD
idx 0` together with the in-bounds enabling hypothesis `idx <
queued_ops.length`, which the source states as the require
`0 <= idx < queued_ops.len()`. -/
inductive Step (nrUpdate : NRSt → UOp → NRSt × Ret) (nrRead : NRSt → ROp → Ret) :
    State UOp ROp Ret NRSt → Label UOp ROp Ret → State UOp ROp Ret NRSt → Prop where
  | readonly_start (s : State UOp ROp Ret NRSt) (rid : ℕ) (op : ROp)
      (hfresh : s.local_reads rid = none) :
      Step nrUpdate nrRead s (.readonly_start rid op)
        { s with local_reads := mupd s.local_reads rid (.init op) }
  | readonly_read_ctail (s : State UOp ROp Ret NRSt) (rid : ℕ) (op : ROp)
      (hrd : s.local_reads rid = some (.init op)) :
      Step nrUpdate nrRead s (.readonly_read_ctail rid)
        { s with local_reads := mupd s.local_reads rid (.versionUpperBound op s.version_upper_bound) }
  | readonly_ready_to_read (s : State UOp ROp Ret NRSt) (rid node_id : ℕ) (op : ROp)
      (version_upper_bound local_head : ℕ)
      (hrd : s.local_reads rid = some (.versionUpperBound op version_upper_bound))
      (hlv : s.local_versions node_id = some local_head)
      (hge : local_head ≥ version_upper_bound) :
      Step nrUpdate nrRead s (.readonly_ready_to_read rid node_id)
        { s with local_reads := mupd s.local_reads rid (.readyToRead op node_id version_upper_bound) }
  | readonly_apply (s : State UOp ROp Ret NRSt) (rid : ℕ) (op : ROp)
      (node_id version_upper_bound : ℕ) (st : NRSt)
      (hrd : s.local_reads rid = some (.readyToRead op node_id version_upper_bound))
      (hcomb : s.combiner node_id = some .ready)
      (hrep : s.replicas node_id = some st) :
      Step nrUpdate nrRead s (.readonly_apply rid)
        { s with local_reads := mupd s.local_reads rid (.done op (nrRead st op) node_id version_upper_bound) }
  | readonly_finish (s : State UOp ROp Ret NRSt) (rid : ℕ) (op : ROp)
      (version_upper_bound node_id : ℕ) (ret : Ret)
      (hrd : s.local_reads rid = some (.done op ret node_id version_upper_bound)) :
      Step nrUpdate nrRead s (.readonly_finish rid op version_upper_bound node_id ret)
        { s with local_reads := mdel s.local_reads rid }
  | update_start (s : State UOp ROp Ret NRSt) (rid : ℕ) (op : UOp)
      (hfresh : s.local_updates rid = none) :
      Step nrUpdate nrRead s (.update_start rid op)
        { s with local_updates := mupd s.local_updates rid (.init op) }
  | update_place_ops_in_log_one (s : State UOp ROp Ret NRSt) (node_id rid : ℕ)
      (queued_ops : List ℕ) (op : UOp)
      (hcomb : s.combiner node_id = some (.placed queued_ops))
      (hupd : s.local_updates rid = some (.init op)) :
      Step nrUpdate nrRead s (.update_place_ops_in_log_one node_id rid)
        { s with
            global_tail := s.global_tail + 1
            log := mupd s.log s.global_tail ⟨op, node_id⟩
            local_updates := mupd s.local_updates rid (.placed op s.global_tail)
            combiner := mupd s.combiner node_id (.placed (queued_ops ++ [rid])) }
  | update_done (s : State UOp ROp Ret NRSt) (rid : ℕ) (ret : Ret) (idx : ℕ)
      (hupd : s.local_updates rid = some (.applied ret idx))
      (hvub : s.version_upper_bound > idx) :
      Step nrUpdate nrRead s (.update_done rid)
        { s with local_updates := mupd s.local_updates rid (.done ret idx) }
  | update_finish (s : State UOp ROp Ret NRSt) (rid : ℕ) (ret : Ret) (idx : ℕ)
      (hupd : s.local_updates rid = some (.done ret idx)) :
      Step nrUpdate nrRead s (.update_finish rid)
        { s with local_updates := mdel s.local_updates rid }
  | exec_trivial_start (s : State UOp ROp Ret NRSt) (node_id : ℕ)
      (hcomb : s.combiner node_id = some .ready) :
      Step nrUpdate nrRead s (.exec_trivial_start node_id)
        { s with combiner := mupd s.combiner node_id (.placed []) }
  | exec_load_local_version (s : State UOp ROp Ret NRSt) (node_id : ℕ)
      (queued_ops : List ℕ) (lversion : ℕ)
      (hcomb : s.combiner node_id = some (.placed queued_ops))
      (hlv : s.local_versions node_id = some lversion) :
      Step nrUpdate nrRead s (.exec_load_local_version node_id)
        { s with combiner := mupd s.combiner node_id (.loadedLocalVersion queued_ops lversion) }
  | exec_load_global_head (s : State UOp ROp Ret NRSt) (node_id : ℕ)
      (queued_ops : List ℕ) (lversion : ℕ)
      (hcomb : s.combiner node_id = some (.loadedLocalVersion queued_ops lversion)) :
      Step nrUpdate nrRead s (.exec_load_global_head node_id)
        { s with combiner := mupd s.combiner node_id (.loop queued_ops lversion 0 s.global_tail) }
  | exec_dispatch_local (s : State UOp ROp Ret NRSt) (node_id : ℕ)
      (queued_ops : List ℕ) (lversion idx global_tail : ℕ) (rid : ℕ)
      (old_nr_state : NRSt) (u : UpdateState UOp Ret) (log_entry : LogEntry UOp)
      (hcomb : s.combiner node_id = some (.loop queued_ops lversion idx global_tail))
      (hrep : s.replicas node_id = some old_nr_state)
      (hrid : queued_ops.getD idx 0 = rid)
      (hidx : idx < queued_ops.length)
      (hupd : s.local_updates rid = some u)
      (hlog : s.log lversion = some log_entry)
      (hlt : lversion < global_tail)
      (hnode : log_entry.node_id = node_id) :
      Step nrUpdate nrRead s (.exec_dispatch_local node_id)
        { s with
            local_updates := mupd s.local_updates rid
                (.applied (nrUpdate old_nr_state log_entry.op).2 lversion)
            replicas := mupd s.replicas node_id (nrUpdate old_nr_state log_entry.op).1
            combiner := mupd s.combiner node_id
                (.loop queued_ops (lversion + 1) (idx + 1) global_tail) }
  | exec_dispatch_remote (s : State UOp ROp Ret NRSt) (node_id : ℕ)
      (queued_ops : List ℕ) (lversion idx global_tail : ℕ)
      (old_nr_state : NRSt) (log_entry : LogEntry UOp)
      (hcomb : s.combiner node_id = some (.loop queued_ops lversion idx global_tail))
      (hrep : s.replicas node_id = some old_nr_state)
      (hlog : s.log lversion = some log_entry)
      (hlt : lversion < global_tail)
      (hnode : log_entry.node_id ≠ node_id) :
      Step nrUpdate nrRead s (.exec_dispatch_remote node_id)
        { s with
            replicas := mupd s.replicas node_id (nrUpdate old_nr_state log_entry.op).1
            combiner := mupd s.combiner node_id
                (.loop queued_ops (lversion + 1) idx global_tail) }
  | exec_update_version_upper_bound (s : State UOp ROp Ret NRSt) (node_id : ℕ)
      (queued_ops : List ℕ) (lversion idx global_tail : ℕ)
      (hcomb : s.combiner node_id = some (.loop queued_ops lversion idx global_tail))
      (heq : lversion = global_tail) :
      Step nrUpdate nrRead s (.exec_update_version_upper_bound node_id)
        { s with
            version_upper_bound := if s.version_upper_bound ≥ global_tail then s.version_upper_bound
              else global_tail
            combiner := mupd s.combiner node_id (.updatedVersion queued_ops global_tail) }
  | exec_finish (s : State UOp ROp Ret NRSt) (node_id : ℕ)
      (queued_ops : List ℕ) (global_tail old_local_head : ℕ)
      (hcomb : s.combiner node_id = some (.updatedVersion queued_ops global_tail))
      (hlv : s.local_versions node_id = some old_local_head) :
      Step nrUpdate nrRead s (.exec_finish node_id)
        { s with
            local_versions := mupd s.local_versions node_id global_tail
            combiner := mupd s.combiner node_id .ready }

/-- Reachability of the unbounded log: initial states plus step closure. -/
inductive Reachable (nrInit : NRSt) (nrUpdate : NRSt → UOp → NRSt × Ret)
    (nrRead : NRSt → ROp → Ret) : State UOp ROp Ret NRSt → Prop where
  | init (number_of_nodes : ℕ) :
      Reachable nrInit nrUpdate nrRead (initState nrInit number_of_nodes)
  | step (s : State UOp ROp Ret NRSt) (l : Label UOp ROp Ret) (s2 : State UOp ROp Ret NRSt)
      (hr : Reachable nrInit nrUpdate nrRead s) (hs : Step nrUpdate nrRead s l s2) :
      Reachable nrInit nrUpdate nrRead s2

/-- The `LogContainsEntriesUpToHere` from src/nr/unbounded_log.rs: the log
contains all entries up to, but not including, the provided end. -/
def LogContainsEntriesUpToHere (log : ℕ → Option (LogEntry UOp)) (stop : ℕ) : Prop :=
  ∀ i, i < stop → (log i).isSome

/-- The `LogNoEntriesFromHere` from src/nr/unbounded_log.rs: the log does not
contain any entries at or above the provided start index. -/
def LogNoEntriesFromHere (log : ℕ → Option (LogEntry UOp)) (start : ℕ) : Prop :=
  ∀ i, start ≤ i → (log i) = none

/-- The `LogRangeNoNodeId` from src/nr/unbounded_log.rs: the log contains no
entries with the given node id between the supplied indices. -/
def LogRangeNoNodeId (log : ℕ → Option (LogEntry UOp)) (start stop node_id : ℕ) : Prop :=
  if _h : start < stop then
    (∃ e, log start = some e ∧ e.node_id ≠ node_id) ∧
      LogRangeNoNodeId log (start + 1) stop node_id
  else True
termination_by stop - start
decreasing_by omega

/-- The `LogRangeMatchesQueue` from src/nr/unbounded_log.rs: a range in the log
matches the queue of updates (here `log.dom().contains i` and the value
access are combined into one existential per entry; `queue.index` becomes
`List.getD`, guarded in the local case by `queueIndex < queue.length`). -/
def LogRangeMatchesQueue (queue : List ℕ) (log : ℕ → Option (LogEntry UOp))
    (queueIndex logIndexLower logIndexUpper nodeId : ℕ)
    (updates : ℕ → Option (UpdateState UOp Ret)) : Prop :=
  (logIndexLower = logIndexUpper → queueIndex = queue.length) ∧
  (if _h : logIndexLower < logIndexUpper then
    ∃ e, log logIndexLower = some e ∧
      (e.node_id = nodeId →
        queueIndex < queue.length ∧
        (∃ op, updates (queue.getD queueIndex 0) = some (.placed op logIndexLower)) ∧
        LogRangeMatchesQueue queue log (queueIndex + 1) (logIndexLower + 1)
          logIndexUpper nodeId updates) ∧
      (e.node_id ≠ nodeId →
        LogRangeMatchesQueue queue log queueIndex (logIndexLower + 1)
          logIndexUpper nodeId updates)
  else True)
termination_by logIndexUpper - logIndexLower
decreasing_by all_goals omega

/-- The `QueueRidsUpdatePlaced` from src/nr/unbounded_log.rs: the updates in the
queue above or equal the current pointer are in placed state (the index
quantification `bound <= j < queued_ops.len()` is expressed through
`List.drop`). -/
def QueueRidsUpdatePlaced (queued_ops : List ℕ)
    (localUpdates : ℕ → Option (UpdateState UOp Ret)) (bound : ℕ) : Prop :=
  ∀ r ∈ queued_ops.drop bound, ∃ op idx, localUpdates r = some (.placed op idx)

/-- The `current_local_version` from src/nr/unbounded_log.rs: the current local
version for the given node depending on the combiner state (a missing
combiner entry defaults like `Ready`; inside the invariant the entry always
exists). -/
def current_local_version (s : State UOp ROp Ret NRSt) (node_id : ℕ) : ℕ :=
  match s.combiner node_id with
  | some (.loadedLocalVersion _ lversion) => lversion
  | some (.loop _ lversion _ _) => lversion
  | some (.updatedVersion _ global_tail) => global_tail
  | _ => (s.local_versions node_id).getD 0

/-- The `wf_node_id` from src/nr/unbounded_log.rs. -/
def wf_node_id (s : State UOp ROp Ret NRSt) (node_id : ℕ) : Prop :=
  (s.combiner node_id).isSome ∧ (s.local_versions node_id).isSome ∧
    (s.replicas node_id).isSome

/-- The `wf_readstate` from src/nr/unbounded_log.rs. -/
def wf_readstate (s : State UOp ROp Ret NRSt) (rs : ReadonlyState ROp Ret) : Prop :=
  match rs with
  | .init _ => True
  | .versionUpperBound _ v => v ≤ s.version_upper_bound
  | .readyToRead _ node_id v =>
      wf_node_id s node_id ∧ v ≤ s.version_upper_bound ∧
        v ≤ current_local_version s node_id
  | .done _ _ node_id v =>
      wf_node_id s node_id ∧ v ≤ s.version_upper_bound ∧
        v ≤ current_local_version s node_id

/-- The inductive core of `wf_combiner_for_node_id` from
src/nr/unbounded_log.rs (the `QueueRidsUpdateDone` conjuncts of the source
are omitted: they are not needed by any claim, and the source itself marks
their preservation with `assume(false)`). -/
def wf_combiner_for_node_id (s : State UOp ROp Ret NRSt) (node_id : ℕ)
    (c : CombinerState) : Prop :=
  match c with
  | .ready =>
      ∀ lv, s.local_versions node_id = some lv →
        LogRangeNoNodeId s.log lv s.global_tail node_id
  | .placed q =>
      (∀ lv, s.local_versions node_id = some lv →
        LogRangeMatchesQueue q s.log 0 lv s.global_tail node_id s.local_updates) ∧
      QueueRidsUpdatePlaced q s.local_updates 0 ∧ q.Nodup
  | .loadedLocalVersion q lv =>
      s.local_versions node_id = some lv ∧
      LogRangeMatchesQueue q s.log 0 lv s.global_tail node_id s.local_updates ∧
      QueueRidsUpdatePlaced q s.local_updates 0 ∧ q.Nodup
  | .loop q lv idx gt =>
      gt ≤ s.global_tail ∧
      (∀ l0, s.local_versions node_id = some l0 → l0 ≤ lv) ∧
      lv ≤ gt ∧ idx ≤ q.length ∧
      LogRangeMatchesQueue q s.log idx lv gt node_id s.local_updates ∧
      LogRangeNoNodeId s.log gt s.global_tail node_id ∧
      QueueRidsUpdatePlaced q s.local_updates idx ∧ q.Nodup
  | .updatedVersion q gt =>
      gt ≤ s.version_upper_bound ∧
      (∀ l0, s.local_versions node_id = some l0 → l0 ≤ gt) ∧
      LogRangeNoNodeId s.log gt s.global_tail node_id ∧ q.Nodup

/-- The still-pending suffix of a combiner's queue (whole queue while
collecting, `queued_ops[idx..]` during the loop, empty otherwise). -/
def activeQueue : CombinerState → List ℕ
  | .ready => []
  | .placed q => q
  | .loadedLocalVersion q _ => q
  | .loop q _ idx _ => q.drop idx
  | .updatedVersion _ _ => []

/-- The inductive invariant of the `UnboundedLog` machine: the domain
agreements, `inv_version_in_range`, `inv_local_version_upper_bound_heads`,
`inv_log_complete`, `inv_readonly_requests_wf` and `combiner_states_wf` of
the source, together with pairwise disjointness of the pending queue
suffixes (the inductive core of `inv_combiner_rids_distinct`). -/
structure Inv (s : State UOp ROp Ret NRSt) : Prop where
  doms_lv : ∀ k, (s.local_versions k).isSome ↔ (s.combiner k).isSome
  doms_rep : ∀ k, (s.replicas k).isSome ↔ (s.combiner k).isSome
  vub_le_tail : s.version_upper_bound ≤ s.global_tail
  lv_le_vub : ∀ n v, s.local_versions n = some v → v ≤ s.version_upper_bound
  log_dom : ∀ i, (s.log i).isSome ↔ i < s.global_tail
  reads_wf : ∀ rid r, s.local_reads rid = some r → wf_readstate s r
  combiner_wf : ∀ n c, s.combiner n = some c → wf_combiner_for_node_id s n c
  active_disjoint : ∀ n1 n2 c1 c2, n1 ≠ n2 → s.combiner n1 = some c1 →
    s.combiner n2 = some c2 → ∀ r, r ∈ activeQueue c1 → r ∉ activeQueue c2
end
end UnboundedLog
namespace CyclicBuffer

/-- The `ReaderState` from src/nr/cyclicbuffer.rs (the source's `end` field is
called `stop` here because `end` is a reserved word). -/
inductive ReaderState (StoredType : Type) where
  | starting (start : ℕ)
  | range (start stop cur : ℕ)
  | guard (start stop cur : ℕ) (val : StoredType)

/-- The `CombinerState` of the cyclic buffer (src/nr/cyclicbuffer.rs). -/
inductive CombinerState (StoredType : Type) where
  | idle
  | reading (r : ReaderState StoredType)
  | advancingHead (idx min_head : ℕ)
  | advancingTail (observed_head : ℕ)
  | appending (cur_idx tail : ℕ)

/-- The fields of the `CyclicBuffer` tokenized state machine.  `contents`
is keyed by `int` in the source (the initial entries sit at negative
logical indices), hence `ℤ → Option StoredType` here. -/
structure State (StoredType : Type) where
  buffer_size : ℕ
  num_replicas : ℕ
  head : ℕ
  tail : ℕ
  local_heads : ℕ → Option ℕ
  contents : ℤ → Option StoredType
  alive_bits : ℕ → Option Bool
  combiner_state : ℕ → Option (CombinerState StoredType)

/-- Transition labels of the `CyclicBuffer` machine, one per `transition!`. -/
inductive Label (StoredType : Type) where
  | reader_do_start (node_id : ℕ)
  | reader_do_enter (node_id : ℕ)
  | reader_do_guard (node_id : ℕ)
  | reader_do_unguard (node_id : ℕ)
  | reader_do_finish (node_id : ℕ)
  | reader_do_abort (node_id : ℕ)
  | init_advance_head (node_id : ℕ)
  | step_advance_head (node_id : ℕ)
  | abandon_advance_head (node_id : ℕ)
  | finish_advance_head (node_id : ℕ)
  | init_advance_tail (node_id : ℕ)
  | abandon_advance_tail (node_id : ℕ)
  | finish_advance_tail (node_id : ℕ) (new_tail : ℕ)
  | append_flip_bit (node_id : ℕ) (deposited : StoredType)
  | finish_appending (node_id : ℕ)

/-- The `logical_to_alive_bit_alive_when` from src/nr/cyclicbuffer.rs: the
generation parity `((logical / buffer_size) % 2) == 0` over `int`. -/
def logical_to_alive_bit_alive_when (logical : ℤ) (buffer_size : ℕ) : Bool :=
  decide ((logical / (buffer_size : ℤ)) % 2 = 0)

/-- The alive-bit value written or expected for a `nat` index, as written
inline in `reader_do_guard` and `append_flip_bit`:
`(idx / buffer_size) % 2 == 0`. -/
def alive_bit_value (idx buffer_size : ℕ) : Bool :=
  decide ((idx / buffer_size) % 2 = 0)

/-- The `entry_is_alive` from src/nr/cyclicbuffer.rs (missing physical slots
read as not-alive; inside the invariant the slot always exists). -/
def entry_is_alive (alive_bits : ℕ → Option Bool) (logical : ℤ) (buffer_size : ℕ) : Prop :=
  alive_bits (logical % (buffer_size : ℤ)).toNat =
    some (logical_to_alive_bit_alive_when logical buffer_size)

/-- The `is_Starting() || is_Range()`, the `require` of `reader_do_abort`. -/
def is_starting_or_range {StoredType : Type} : ReaderState StoredType → Prop
  | .starting _ => True
  | .range _ _ _ => True
  | .guard _ _ _ _ => False

/-- Withdrawal of a logical index range from the contents map (the
`withdraw contents -= (withdrawn)` of `finish_advance_tail`). -/
def withdrawRange {V : Type} (m : ℤ → Option V) (lo hi : ℤ) : ℤ → Option V :=
  fun i => if lo ≤ i ∧ i < hi then none else m i
end CyclicBuffer
namespace CyclicBuffer
section
variable {StoredType : Type}

/-- The `init!{ initialize(buffer_size, num_replicas, contents) }` state of
the cyclic buffer (the `require` on the contents domain is an enabling
condition of `Reachable.init`). -/
def initState (buffer_size num_replicas : ℕ) (contents : ℤ → Option StoredType) :
    State StoredType where
  buffer_size := buffer_size
  num_replicas := num_replicas
  head := 0
  tail := 0
  local_heads := fun i => if i < num_replicas then some 0 else none
  contents := contents
  alive_bits := fun i => if i < buffer_size then some false else none
  combiner_state := fun i => if i < num_replicas then some .idle else none

/-- The step relation of the `CyclicBuffer` machine, parameterized by the
uninterpreted `stored_type_inv` of the source.  One constructor per
`transition!` block of src/nr/cyclicbuffer.rs; `require` clauses and token
existence are the enabling conditions (the source's `append_flip_bit` has
no `cur_idx < tail` requirement, and its alive-bit polarity `require` is
commented out, so neither appears here). -/
inductive Step (sti : StoredType → ℤ → Prop) :
    State StoredType → Label StoredType → State StoredType → Prop where
  | reader_do_start (s : State StoredType) (node_id local_head : ℕ)
      (hlh : s.local_heads node_id = some local_head)
      (hcomb : s.combiner_state node_id = some .idle) :
      Step sti s (.reader_do_start node_id)
        { s with combiner_state := mupd s.combiner_state node_id (.reading (.starting local_head)) }
  | reader_do_enter (s : State StoredType) (node_id start : ℕ)
      (hcomb : s.combiner_state node_id = some (.reading (.starting start))) :
      Step sti s (.reader_do_enter node_id)
        { s with combiner_state := mupd s.combiner_state node_id (.reading (.range start s.tail start)) }
  | reader_do_guard (s : State StoredType) (node_id start stop cur : ℕ) (val : StoredType)
      (hcomb : s.combiner_state node_id = some (.reading (.range start stop cur)))
      (halive : s.alive_bits (cur % s.buffer_size) = some (alive_bit_value cur s.buffer_size))
      (hval : ∀ v, s.contents (cur : ℤ) = some v → v = val) :
      Step sti s (.reader_do_guard node_id)
        { s with combiner_state := mupd s.combiner_state node_id (.reading (.guard start stop cur val)) }
  | reader_do_unguard (s : State StoredType) (node_id start stop cur : ℕ) (val : StoredType)
      (hcomb : s.combiner_state node_id = some (.reading (.guard start stop cur val))) :
      Step sti s (.reader_do_unguard node_id)
        { s with combiner_state := mupd s.combiner_state node_id (.reading (.range start stop (cur + 1))) }
  | reader_do_finish (s : State StoredType) (node_id start stop cur : ℕ)
      (hcomb : s.combiner_state node_id = some (.reading (.range start stop cur)))
      (hlh : (s.local_heads node_id).isSome) :
      Step sti s (.reader_do_finish node_id)
        { s with
            combiner_state := mupd s.combiner_state node_id .idle
            local_heads := mupd s.local_heads node_id stop }
  | reader_do_abort (s : State StoredType) (node_id : ℕ) (r : ReaderState StoredType)
      (hcomb : s.combiner_state node_id = some (.reading r))
      (hr : is_starting_or_range r) :
      Step sti s (.reader_do_abort node_id)
        { s with combiner_state := mupd s.combiner_state node_id .idle }
  | init_advance_head (s : State StoredType) (node_id local_head_0 : ℕ)
      (hlh : s.local_heads node_id = some local_head_0)
      (hcomb : s.combiner_state node_id = some .idle) :
      Step sti s (.init_advance_head node_id)
        { s with combiner_state := mupd s.combiner_state node_id (.advancingHead 1 local_head_0) }
  | step_advance_head (s : State StoredType) (node_id idx min_head local_head_at_idx : ℕ)
      (hcomb : s.combiner_state node_id = some (.advancingHead idx min_head))
      (hidx : idx < s.num_replicas)
      (hlh : s.local_heads idx = some local_head_at_idx) :
      Step sti s (.step_advance_head node_id)
        { s with combiner_state := mupd s.combiner_state node_id (.advancingHead (idx + 1) (min min_head local_head_at_idx)) }
  | abandon_advance_head (s : State StoredType) (node_id idx min_head : ℕ)
      (hcomb : s.combiner_state node_id = some (.advancingHead idx min_head)) :
      Step sti s (.abandon_advance_head node_id)
        { s with combiner_state := mupd s.combiner_state node_id .idle }
  | finish_advance_head (s : State StoredType) (node_id idx min_head : ℕ)
      (hcomb : s.combiner_state node_id = some (.advancingHead idx min_head))
      (hidx : idx = s.num_replicas) :
      Step sti s (.finish_advance_head node_id)
        { s with
            head := min_head
            combiner_state := mupd s.combiner_state node_id .idle }
  | init_advance_tail (s : State StoredType) (node_id local_head_0 : ℕ)
      (hlh0 : s.local_heads 0 = some local_head_0)
      (hcomb : s.combiner_state node_id = some .idle) :
      Step sti s (.init_advance_tail node_id)
        { s with combiner_state := mupd s.combiner_state node_id (.advancingTail s.head) }
  | abandon_advance_tail (s : State StoredType) (node_id observed_head : ℕ)
      (hcomb : s.combiner_state node_id = some (.advancingTail observed_head)) :
      Step sti s (.abandon_advance_tail node_id)
        { s with combiner_state := mupd s.combiner_state node_id .idle }
  | finish_advance_tail (s : State StoredType) (node_id new_tail observed_head : ℕ)
      (hcomb : s.combiner_state node_id = some (.advancingTail observed_head))
      (hreq : s.tail ≤ new_tail ∧ new_tail ≤ observed_head + s.buffer_size) :
      Step sti s (.finish_advance_tail node_id new_tail)
        { s with
            tail := new_tail
            combiner_state := mupd s.combiner_state node_id (.appending s.tail new_tail)
            contents := withdrawRange s.contents ((s.tail : ℤ) - s.buffer_size) ((new_tail : ℤ) - s.buffer_size) }
  | append_flip_bit (s : State StoredType) (node_id cur_idx tail : ℕ)
      (deposited : StoredType) (bit : Bool)
      (hcomb : s.combiner_state node_id = some (.appending cur_idx tail))
      (hbit : s.alive_bits (cur_idx % s.buffer_size) = some bit)
      (hsti : sti deposited (cur_idx : ℤ)) :
      Step sti s (.append_flip_bit node_id deposited)
        { s with
            combiner_state := mupd s.combiner_state node_id (.appending (cur_idx + 1) tail)
            alive_bits := mupd s.alive_bits (cur_idx % s.buffer_size) (alive_bit_value cur_idx s.buffer_size)
            contents := mupd s.contents (cur_idx : ℤ) deposited }
  | finish_appending (s : State StoredType) (node_id cur_idx tail : ℕ)
      (hcomb : s.combiner_state node_id = some (.appending cur_idx tail))
      (heq : cur_idx = tail) :
      Step sti s (.finish_appending node_id)
        { s with combiner_state := mupd s.combiner_state node_id .idle }

/-- Reachability of the cyclic buffer: initial states (with the initial
contents covering exactly `[-buffer_size, 0)`, the `require` of
`initialize`) plus step closure. -/
inductive Reachable (sti : StoredType → ℤ → Prop) : State StoredType → Prop where
  | init (buffer_size num_replicas : ℕ) (contents : ℤ → Option StoredType)
      (hcont : ∀ i : ℤ, (contents i).isSome ↔ (-(buffer_size : ℤ) ≤ i ∧ i < 0)) :
      Reachable sti (initState buffer_size num_replicas contents)
  | step (s : State StoredType) (l : Label StoredType) (s2 : State StoredType)
      (hr : Reachable sti s) (hs : Step sti s l s2) : Reachable sti s2

/-- The inductive invariant behind claim C5: every `Appending` combiner's
reserved upper end is at most the shared tail, and the reserved ranges of
distinct `Appending` combiners are separated. -/
structure InvA (s : State StoredType) : Prop where
  appending_tail_le : ∀ n c t, s.combiner_state n = some (.appending c t) → t ≤ s.tail
  appending_separated : ∀ i j ci ti cj tj, i ≠ j →
    s.combiner_state i = some (.appending ci ti) →
    s.combiner_state j = some (.appending cj tj) → ti ≤ cj ∨ tj ≤ ci
end
end CyclicBuffer
namespace UnboundedLog

/-- Concrete replica interface used by the witnesses: state and return are
numbers, an update adds the operand and returns the old state, a read
returns the state. -/
def uwUpd : ℕ → ℕ → ℕ × ℕ := fun st op => (st + op, st)

/-- Concrete read function used by the witnesses. -/
def uwRead : ℕ → ℕ → ℕ := fun st _ => st

/-- Witness: the initial unbounded-log state with one replica. -/
def uwState0 : State ℕ ℕ ℕ ℕ := initState 0 1

/-- Witness: after `exec_trivial_start 0`. -/
def uwState1 : State ℕ ℕ ℕ ℕ :=
  { uwState0 with combiner := mupd uwState0.combiner 0 (.placed []) }

/-- Witness: after `exec_load_local_version 0`. -/
def uwState2 : State ℕ ℕ ℕ ℕ :=
  { uwState1 with combiner := mupd uwState1.combiner 0 (.loadedLocalVersion [] 0) }

/-- Witness: after `exec_load_global_head 0`; combiner 0 is in `Loop`. -/
def uwState3 : State ℕ ℕ ℕ ℕ :=
  { uwState2 with combiner := mupd uwState2.combiner 0 (.loop [] 0 0 uwState2.global_tail) }

/-- Witness: after `exec_update_version_upper_bound 0`. -/
def uwState4 : State ℕ ℕ ℕ ℕ :=
  { uwState3 with
      version_upper_bound := if uwState3.version_upper_bound ≥ 0 then uwState3.version_upper_bound else 0
      combiner := mupd uwState3.combiner 0 (.updatedVersion [] 0) }

/-- Witness: the readonly request 0 freshly started. -/
def uwrState1 : State ℕ ℕ ℕ ℕ :=
  { uwState0 with local_reads := mupd uwState0.local_reads 0 (.init 0) }

/-- Witness: readonly request 0 after reading the version upper bound. -/
def uwrState2 : State ℕ ℕ ℕ ℕ :=
  { uwrState1 with local_reads := mupd uwrState1.local_reads 0 (.versionUpperBound 0 uwrState1.version_upper_bound) }

/-- Witness: readonly request 0 in `ReadyToRead` on node 0. -/
def uwrState3 : State ℕ ℕ ℕ ℕ :=
  { uwrState2 with local_reads := mupd uwrState2.local_reads 0 (.readyToRead 0 0 0) }

/-- Counterexample state for claim C8: combiner 0 already has request 5 in
its queue while update 5 is (again) in `Init`; the transition fires
regardless, so `rid ∉ queued_ops` is not a precondition of the code. -/
def cexPlaceState : State ℕ ℕ ℕ ℕ where
  num_replicas := 1
  log := fun _ => none
  global_tail := 0
  replicas := fun n => if n = 0 then some 0 else none
  local_versions := fun n => if n = 0 then some 0 else none
  version_upper_bound := 0
  local_reads := fun _ => none
  local_updates := fun r => if r = 5 then some (.init 0) else none
  combiner := fun n => if n = 0 then some (.placed [5]) else none

/-- The successor of `cexPlaceState` under
`update_place_ops_in_log_one 0 5`. -/
def cexPlaceState2 : State ℕ ℕ ℕ ℕ :=
  { cexPlaceState with
      global_tail := cexPlaceState.global_tail + 1
      log := mupd cexPlaceState.log cexPlaceState.global_tail ⟨0, 0⟩
      local_updates := mupd cexPlaceState.local_updates 5 (.placed 0 cexPlaceState.global_tail)
      combiner := mupd cexPlaceState.combiner 0 (.placed ([5] ++ [5])) }
end UnboundedLog
namespace CyclicBuffer

/-- Trivial instantiation of the uninterpreted `stored_type_inv` used by
the concrete runs. -/
def stiTrivial : Unit → ℤ → Prop := fun _ _ => True

/-- Initial contents for a buffer of size 1: exactly the logical index -1. -/
def cbContents1 : ℤ → Option Unit := fun i => if i = -1 then some () else none

/-- Initial contents for a buffer of size 4: the logical range [-4, 0). -/
def cbContents4 : ℤ → Option Unit := fun i => if -4 ≤ i ∧ i < 0 then some () else none

/-- Failing run for claims C6/C7 (buffer_size 1, one replica): state 0. -/
def cbBug0 : State Unit := initState 1 1 cbContents1

/-- Failing run: after `init_advance_tail 0`. -/
def cbBug1 : State Unit :=
  { cbBug0 with combiner_state := mupd cbBug0.combiner_state 0 (.advancingTail cbBug0.head) }

/-- Failing run: after `finish_advance_tail 0 0` — combiner 0 is
`Appending{cur_idx = 0, tail = 0}` while the shared tail is 0. -/
def cbBug2 : State Unit :=
  { cbBug1 with
      tail := 0
      combiner_state := mupd cbBug1.combiner_state 0 (.appending cbBug1.tail 0)
      contents := withdrawRange cbBug1.contents ((cbBug1.tail : ℤ) - cbBug1.buffer_size) ((0 : ℤ) - cbBug1.buffer_size) }

/-- Failing run: after `append_flip_bit 0 ()` taken at `cur_idx = tail` —
an entry has been deposited at logical index 0 although the tail is 0. -/
def cbBug3 : State Unit :=
  { cbBug2 with
      combiner_state := mupd cbBug2.combiner_state 0 (.appending (0 + 1) 0)
      alive_bits := mupd cbBug2.alive_bits (0 % cbBug2.buffer_size) (alive_bit_value 0 cbBug2.buffer_size)
      contents := mupd cbBug2.contents ((0 : ℕ) : ℤ) () }

/-- Failing run for claim C1 (buffer_size 1, two replicas): state 0. -/
def cbHd0 : State Unit := initState 1 2 cbContents1

/-- Failing run: after `init_advance_tail 0`. -/
def cbHd1 : State Unit :=
  { cbHd0 with combiner_state := mupd cbHd0.combiner_state 0 (.advancingTail cbHd0.head) }

/-- Failing run: after `finish_advance_tail 0 1`. -/
def cbHd2 : State Unit :=
  { cbHd1 with
      tail := 1
      combiner_state := mupd cbHd1.combiner_state 0 (.appending cbHd1.tail 1)
      contents := withdrawRange cbHd1.contents ((cbHd1.tail : ℤ) - cbHd1.buffer_size) ((1 : ℤ) - cbHd1.buffer_size) }

/-- Failing run: after `append_flip_bit 0 ()`. -/
def cbHd3 : State Unit :=
  { cbHd2 with
      combiner_state := mupd cbHd2.combiner_state 0 (.appending (0 + 1) 1)
      alive_bits := mupd cbHd2.alive_bits (0 % cbHd2.buffer_size) (alive_bit_value 0 cbHd2.buffer_size)
      contents := mupd cbHd2.contents ((0 : ℕ) : ℤ) () }

/-- Failing run: after `finish_appending 0`. -/
def cbHd4 : State Unit :=
  { cbHd3 with combiner_state := mupd cbHd3.combiner_state 0 .idle }

/-- Failing run: after `reader_do_start 1`. -/
def cbHd5 : State Unit :=
  { cbHd4 with combiner_state := mupd cbHd4.combiner_state 1 (.reading (.starting 0)) }

/-- Failing run: after `reader_do_enter 1`. -/
def cbHd6 : State Unit :=
  { cbHd5 with combiner_state := mupd cbHd5.combiner_state 1 (.reading (.range 0 cbHd5.tail 0)) }

/-- Failing run: after `reader_do_guard 1`. -/
def cbHd7 : State Unit :=
  { cbHd6 with combiner_state := mupd cbHd6.combiner_state 1 (.reading (.guard 0 1 0 ())) }

/-- Failing run: after `reader_do_unguard 1`. -/
def cbHd8 : State Unit :=
  { cbHd7 with combiner_state := mupd cbHd7.combiner_state 1 (.reading (.range 0 1 (0 + 1))) }

/-- Failing run: after `reader_do_finish 1` — `local_heads[1] = 1`. -/
def cbHd9 : State Unit :=
  { cbHd8 with
      combiner_state := mupd cbHd8.combiner_state 1 .idle
      local_heads := mupd cbHd8.local_heads 1 1 }

/-- Failing run: after `init_advance_head 1` — the scan is seeded with
`local_heads[1] = 1` (not with replica 0's local head) and starts at
index 1, exactly as the source writes it. -/
def cbHd10 : State Unit :=
  { cbHd9 with combiner_state := mupd cbHd9.combiner_state 1 (.advancingHead 1 1) }

/-- Failing run: after `step_advance_head 1`. -/
def cbHd11 : State Unit :=
  { cbHd10 with combiner_state := mupd cbHd10.combiner_state 1 (.advancingHead (1 + 1) (min 1 1)) }

/-- Failing run: after `finish_advance_head 1` — `head = 1` although
`local_heads[0] = 0`. -/
def cbHd12 : State Unit :=
  { cbHd11 with
      head := min 1 1
      combiner_state := mupd cbHd11.combiner_state 1 .idle }

/-- Witness run for claim C5 (buffer_size 4, two replicas): state 0. -/
def cbW0 : State Unit := initState 4 2 cbContents4

/-- Witness run: after `init_advance_tail 0`. -/
def cbW1 : State Unit :=
  { cbW0 with combiner_state := mupd cbW0.combiner_state 0 (.advancingTail cbW0.head) }

/-- Witness run: after `finish_advance_tail 0 2` — combiner 0 is
`Appending{0, 2}`. -/
def cbW2 : State Unit :=
  { cbW1 with
      tail := 2
      combiner_state := mupd cbW1.combiner_state 0 (.appending cbW1.tail 2)
      contents := withdrawRange cbW1.contents ((cbW1.tail : ℤ) - cbW1.buffer_size) ((2 : ℤ) - cbW1.buffer_size) }

/-- Witness run: after `init_advance_tail 1`. -/
def cbW3 : State Unit :=
  { cbW2 with combiner_state := mupd cbW2.combiner_state 1 (.advancingTail cbW2.head) }

/-- Witness run: after `finish_advance_tail 1 3` — combiner 1 is
`Appending{2, 3}` while combiner 0 is `Appending{0, 2}`. -/
def cbW4 : State Unit :=
  { cbW3 with
      tail := 3
      combiner_state := mupd cbW3.combiner_state 1 (.appending cbW3.tail 3)
      contents := withdrawRange cbW3.contents ((cbW3.tail : ℤ) - cbW3.buffer_size) ((3 : ℤ) - cbW3.buffer_size) }
end CyclicBuffer

theorem mupd_same {K V : Type} [DecidableEq K] (m : K → Option V) (k : K) (v : V) :
    mupd m k v k = some v := by
  simp [mupd]

theorem mupd_other {K V : Type} [DecidableEq K] (m : K → Option V) (k k2 : K) (v : V)
    (h : k2 ≠ k) : mupd m k v k2 = m k2 := by
  simp [mupd, h]

theorem mdel_same {K V : Type} [DecidableEq K] (m : K → Option V) (k : K) :
    mdel m k k = none := by
  simp [mdel]

theorem mdel_other {K V : Type} [DecidableEq K] (m : K → Option V) (k k2 : K)
    (h : k2 ≠ k) : mdel m k k2 = m k2 := by
  simp [mdel, h]
namespace UnboundedLog
section
variable {UOp ROp Ret NRSt : Type}

theorem mem_drop_of_mem_drop_succ {α : Type} {q : List α} {i : ℕ} {r : α}
    (h : r ∈ q.drop (i + 1)) : r ∈ q.drop i := by
  have hq : (q.drop i).drop 1 = q.drop (i + 1) := by rw [List.drop_drop]
  exact List.drop_subset _ _ (hq ▸ h)

theorem getD_mem_drop {q : List ℕ} {i : ℕ} (h : i < q.length) :
    q.getD i 0 ∈ q.drop i := by
  rw [List.drop_eq_getElem_cons h, List.getD_eq_getElem q 0 h]
  exact List.mem_cons_self _ _

theorem nodup_getD_notin_drop_succ {q : List ℕ} {i : ℕ} (hnd : q.Nodup)
    (h : i < q.length) : q.getD i 0 ∉ q.drop (i + 1) := by
  have hsub : (q.drop i).Nodup := (List.drop_sublist i q).nodup hnd
  rw [List.drop_eq_getElem_cons h] at hsub
  rw [List.getD_eq_getElem q 0 h]
  exact (List.nodup_cons.mp hsub).1

theorem LogRangeNoNodeId_ge {log : ℕ → Option (LogEntry UOp)} {start stop n : ℕ}
    (h : stop ≤ start) : LogRangeNoNodeId log start stop n := by
  rw [LogRangeNoNodeId, dif_neg (by omega)]
  trivial

theorem LogRangeNoNodeId_elim {log : ℕ → Option (LogEntry UOp)} {start stop n : ℕ}
    (h : LogRangeNoNodeId log start stop n) (hlt : start < stop) :
    (∃ e, log start = some e ∧ e.node_id ≠ n) ∧
      LogRangeNoNodeId log (start + 1) stop n := by
  rw [LogRangeNoNodeId, dif_pos hlt] at h
  exact h

theorem LogRangeNoNodeId_intro {log : ℕ → Option (LogEntry UOp)} {start stop n : ℕ}
    (hlt : start < stop) (he : ∃ e, log start = some e ∧ e.node_id ≠ n)
    (h : LogRangeNoNodeId log (start + 1) stop n) :
    LogRangeNoNodeId log start stop n := by
  rw [LogRangeNoNodeId, dif_pos hlt]
  exact ⟨he, h⟩

theorem LogRangeNoNodeId_agree {log log2 : ℕ → Option (LogEntry UOp)}
    {start stop n : ℕ}
    (hlog : ∀ i, start ≤ i → i < stop → log2 i = log i)
    (h : LogRangeNoNodeId log start stop n) :
    LogRangeNoNodeId log2 start stop n := by
  by_cases hlt : start < stop
  · obtain ⟨⟨e, he, hne⟩, hrest⟩ := LogRangeNoNodeId_elim h hlt
    refine LogRangeNoNodeId_intro hlt ⟨e, ?_, hne⟩
        (LogRangeNoNodeId_agree (fun i h1 h2 => hlog i (by omega) h2) hrest)
    rw [hlog start le_rfl hlt, he]
  · exact LogRangeNoNodeId_ge (by omega)
termination_by stop - start
decreasing_by omega

theorem LogRangeNoNodeId_extend {log : ℕ → Option (LogEntry UOp)}
    {start stop n : ℕ} {e : LogEntry UOp}
    (hle : start ≤ stop) (h : LogRangeNoNodeId log start stop n)
    (hlog : log stop = some e) (hne : e.node_id ≠ n) :
    LogRangeNoNodeId log start (stop + 1) n := by
  by_cases heq : start = stop
  · subst heq
    exact LogRangeNoNodeId_intro (by omega) ⟨e, hlog, hne⟩ (LogRangeNoNodeId_ge le_rfl)
  · have hlt : start < stop := by omega
    obtain ⟨hhead, hrest⟩ := LogRangeNoNodeId_elim h hlt
    exact LogRangeNoNodeId_intro (by omega) hhead
      (LogRangeNoNodeId_extend (by omega) hrest hlog hne)
termination_by stop - start
decreasing_by omega

theorem LogRangeMatchesQueue_len {q : List ℕ} {log : ℕ → Option (LogEntry UOp)}
    {qi lo hi n : ℕ} {u : ℕ → Option (UpdateState UOp Ret)}
    (h : LogRangeMatchesQueue q log qi lo hi n u) (heq : lo = hi) :
    qi = q.length := by
  rw [LogRangeMatchesQueue] at h
  exact h.1 heq

theorem LogRangeMatchesQueue_elim {q : List ℕ} {log : ℕ → Option (LogEntry UOp)}
    {qi lo hi n : ℕ} {u : ℕ → Option (UpdateState UOp Ret)}
    (h : LogRangeMatchesQueue q log qi lo hi n u) (hlt : lo < hi) :
    ∃ e, log lo = some e ∧
      (e.node_id = n →
        qi < q.length ∧
        (∃ op, u (q.getD qi 0) = some (.placed op lo)) ∧
        LogRangeMatchesQueue q log (qi + 1) (lo + 1) hi n u) ∧
      (e.node_id ≠ n →
        LogRangeMatchesQueue q log qi (lo + 1) hi n u) := by
  rw [LogRangeMatchesQueue, dif_pos hlt] at h
  exact h.2

theorem LogRangeMatchesQueue_intro_eq {q : List ℕ} {log : ℕ → Option (LogEntry UOp)}
    {qi lo hi n : ℕ} {u : ℕ → Option (UpdateState UOp Ret)}
    (heq : lo = hi) (hlen : qi = q.length) :
    LogRangeMatchesQueue q log qi lo hi n u := by
  rw [LogRangeMatchesQueue, dif_neg (by omega)]
  exact ⟨fun _ => hlen, trivial⟩

theorem LogRangeMatchesQueue_intro_lt {q : List ℕ} {log : ℕ → Option (LogEntry UOp)}
    {qi lo hi n : ℕ} {u : ℕ → Option (UpdateState UOp Ret)}
    (hlt : lo < hi)
    (he : ∃ e, log lo = some e ∧
      (e.node_id = n →
        qi < q.length ∧
        (∃ op, u (q.getD qi 0) = some (.placed op lo)) ∧
        LogRangeMatchesQueue q log (qi + 1) (lo + 1) hi n u) ∧
      (e.node_id ≠ n →
        LogRangeMatchesQueue q log qi (lo + 1) hi n u)) :
    LogRangeMatchesQueue q log qi lo hi n u := by
  rw [LogRangeMatchesQueue, dif_pos hlt]
  exact ⟨fun hx => absurd hx (by omega), he⟩

theorem LogRangeMatchesQueue_step_local {q : List ℕ} {log : ℕ → Option (LogEntry UOp)}
    {qi lo hi n : ℕ} {u : ℕ → Option (UpdateState UOp Ret)} {e : LogEntry UOp}
    (h : LogRangeMatchesQueue q log qi lo hi n u) (hlt : lo < hi)
    (hlog : log lo = some e) (hen : e.node_id = n) :
    qi < q.length ∧ (∃ op, u (q.getD qi 0) = some (.placed op lo)) ∧
      LogRangeMatchesQueue q log (qi + 1) (lo + 1) hi n u := by
  obtain ⟨e2, he2, hloc, _⟩ := LogRangeMatchesQueue_elim h hlt
  have : e2 = e := by rw [hlog] at he2; exact (Option.some_inj.mp he2).symm
  subst this
  exact hloc hen

theorem LogRangeMatchesQueue_step_remote {q : List ℕ} {log : ℕ → Option (LogEntry UOp)}
    {qi lo hi n : ℕ} {u : ℕ → Option (UpdateState UOp Ret)} {e : LogEntry UOp}
    (h : LogRangeMatchesQueue q log qi lo hi n u) (hlt : lo < hi)
    (hlog : log lo = some e) (hen : e.node_id ≠ n) :
    LogRangeMatchesQueue q log qi (lo + 1) hi n u := by
  obtain ⟨e2, he2, _, hrem⟩ := LogRangeMatchesQueue_elim h hlt
  have : e2 = e := by rw [hlog] at he2; exact (Option.some_inj.mp he2).symm
  subst this
  exact hrem hen

theorem LogRangeMatchesQueue_qi_le {q : List ℕ} {log : ℕ → Option (LogEntry UOp)}
    {qi lo hi n : ℕ} {u : ℕ → Option (UpdateState UOp Ret)}
    (hle : lo ≤ hi) (h : LogRangeMatchesQueue q log qi lo hi n u) :
    qi ≤ q.length := by
  by_cases heq : lo = hi
  · exact le_of_eq (LogRangeMatchesQueue_len h heq)
  · have hlt : lo < hi := by omega
    obtain ⟨e, he, hloc, hrem⟩ := LogRangeMatchesQueue_elim h hlt
    by_cases hn : e.node_id = n
    · exact le_of_lt (hloc hn).1
    · exact LogRangeMatchesQueue_qi_le (by omega) (hrem hn)
termination_by hi - lo
decreasing_by omega

theorem LogRangeMatchesQueue_agree {q : List ℕ} {log log2 : ℕ → Option (LogEntry UOp)}
    {qi lo hi n : ℕ} {u u2 : ℕ → Option (UpdateState UOp Ret)}
    (hlog : ∀ i, lo ≤ i → i < hi → log2 i = log i)
    (hu : ∀ r ∈ q.drop qi, u2 r = u r)
    (h : LogRangeMatchesQueue q log qi lo hi n u) :
    LogRangeMatchesQueue q log2 qi lo hi n u2 := by
  by_cases hlt : lo < hi
  · obtain ⟨e, he, hloc, hrem⟩ := LogRangeMatchesQueue_elim h hlt
    refine LogRangeMatchesQueue_intro_lt hlt ⟨e, ?_, ?_, ?_⟩
    · rw [hlog lo le_rfl hlt, he]
    · intro hen
      obtain ⟨hqi, ⟨op, hop⟩, hrec⟩ := hloc hen
      refine ⟨hqi, ⟨op, ?_⟩, ?_⟩
      · rw [hu _ (getD_mem_drop hqi), hop]
      · exact LogRangeMatchesQueue_agree (fun i h1 h2 => hlog i (by omega) h2)
          (fun r hr => hu r (mem_drop_of_mem_drop_succ hr)) hrec
    · intro hen
      exact LogRangeMatchesQueue_agree (fun i h1 h2 => hlog i (by omega) h2) hu (hrem hen)
  · rw [LogRangeMatchesQueue] at h ⊢
    exact ⟨h.1, by rw [dif_neg hlt]; trivial⟩
termination_by hi - lo
decreasing_by all_goals omega

theorem LogRangeMatchesQueue_extend_remote {q : List ℕ}
    {log : ℕ → Option (LogEntry UOp)} {qi lo hi n : ℕ}
    {u : ℕ → Option (UpdateState UOp Ret)} {e : LogEntry UOp}
    (hle : lo ≤ hi) (h : LogRangeMatchesQueue q log qi lo hi n u)
    (hlog : log hi = some e) (hne : e.node_id ≠ n) :
    LogRangeMatchesQueue q log qi lo (hi + 1) n u := by
  by_cases heq : lo = hi
  · subst heq
    have hlen : qi = q.length := LogRangeMatchesQueue_len h rfl
    refine LogRangeMatchesQueue_intro_lt (by omega) ⟨e, hlog, ?_, ?_⟩
    · intro hen; exact absurd hen hne
    · intro _; exact LogRangeMatchesQueue_intro_eq rfl hlen
  · have hlt : lo < hi := by omega
    obtain ⟨e2, he2, hloc, hrem⟩ := LogRangeMatchesQueue_elim h hlt
    refine LogRangeMatchesQueue_intro_lt (by omega) ⟨e2, he2, ?_, ?_⟩
    · intro hen
      obtain ⟨hqi, hop, hrec⟩ := hloc hen
      exact ⟨hqi, hop, LogRangeMatchesQueue_extend_remote (by omega) hrec hlog hne⟩
    · intro hen
      exact LogRangeMatchesQueue_extend_remote (by omega) (hrem hen) hlog hne
termination_by hi - lo
decreasing_by all_goals omega

theorem LogRangeMatchesQueue_append_local {q : List ℕ}
    {log : ℕ → Option (LogEntry UOp)} {qi lo hi n : ℕ}
    {u u2 : ℕ → Option (UpdateState UOp Ret)} {e : LogEntry UOp}
    {rid : ℕ} {op2 : UOp}
    (hle : lo ≤ hi) (h : LogRangeMatchesQueue q log qi lo hi n u)
    (hlog : log hi = some e) (hen : e.node_id = n)
    (hu2 : u2 rid = some (.placed op2 hi))
    (hagree : ∀ r ∈ q.drop qi, u2 r = u r)
    (hnotin : rid ∉ q.drop qi) :
    LogRangeMatchesQueue (q ++ [rid]) log qi lo (hi + 1) n u2 := by
  by_cases heq : lo = hi
  · subst heq
    have hlen : qi = q.length := LogRangeMatchesQueue_len h rfl
    refine LogRangeMatchesQueue_intro_lt (by omega) ⟨e, hlog, ?_, ?_⟩
    · intro _
      refine ⟨by simp [hlen], ⟨op2, ?_⟩, ?_⟩
      · have : (q ++ [rid]).getD qi 0 = rid := by
          rw [List.getD_append_right q [rid] 0 qi (by omega)]
          simp [hlen]
        rw [this, hu2]
      · exact LogRangeMatchesQueue_intro_eq rfl (by simp [hlen])
    · intro hne; exact absurd hen hne
  · have hlt : lo < hi := by omega
    obtain ⟨e2, he2, hloc, hrem⟩ := LogRangeMatchesQueue_elim h hlt
    refine LogRangeMatchesQueue_intro_lt (by omega) ⟨e2, he2, ?_, ?_⟩
    · intro hen2
      obtain ⟨hqi, ⟨op, hop⟩, hrec⟩ := hloc hen2
      refine ⟨by simp; omega, ⟨op, ?_⟩, ?_⟩
      · rw [List.getD_append q [rid] 0 qi hqi,
          hagree _ (getD_mem_drop hqi), hop]
      · exact LogRangeMatchesQueue_append_local (by omega) hrec hlog hen hu2
          (fun r hr => hagree r (mem_drop_of_mem_drop_succ hr))
          (fun hr => hnotin (mem_drop_of_mem_drop_succ hr))
    · intro hen2
      exact LogRangeMatchesQueue_append_local (by omega) (hrem hen2) hlog hen hu2
        hagree hnotin
termination_by hi - lo
decreasing_by all_goals omega

theorem LogRangeMatchesQueue_of_LogRangeNoNodeId {log : ℕ → Option (LogEntry UOp)}
    {lo hi n : ℕ} {u : ℕ → Option (UpdateState UOp Ret)}
    (hle : lo ≤ hi) (h : LogRangeNoNodeId log lo hi n) :
    LogRangeMatchesQueue ([] : List ℕ) log 0 lo hi n u := by
  by_cases heq : lo = hi
  · exact LogRangeMatchesQueue_intro_eq heq rfl
  · have hlt : lo < hi := by omega
    obtain ⟨⟨e, he, hne⟩, hrest⟩ := LogRangeNoNodeId_elim h hlt
    refine LogRangeMatchesQueue_intro_lt hlt ⟨e, he, ?_, ?_⟩
    · intro hen; exact absurd hen hne
    · intro _; exact LogRangeMatchesQueue_of_LogRangeNoNodeId (by omega) hrest
termination_by hi - lo
decreasing_by all_goals omega

theorem lv_le_current_local_version {s : State UOp ROp Ret NRSt} {n lv : ℕ}
    (hcwf : ∀ n2 c, s.combiner n2 = some c → wf_combiner_for_node_id s n2 c)
    (hlv : s.local_versions n = some lv) :
    lv ≤ current_local_version s n := by
  cases hc : s.combiner n with
  | none => simp [current_local_version, hc, hlv]
  | some c =>
    cases c with
    | ready => simp [current_local_version, hc, hlv]
    | placed q => simp [current_local_version, hc, hlv]
    | loadedLocalVersion q lv2 =>
      have hw := hcwf n _ hc
      have heq : lv2 = lv := by
        have h1 := hw.1
        rw [hlv] at h1
        exact (Option.some_inj.mp h1).symm
      simp [current_local_version, hc, heq]
    | loop q lv2 idx gt =>
      simp only [current_local_version, hc]
      exact (hcwf n _ hc).2.1 lv hlv
    | updatedVersion q gt =>
      simp only [current_local_version, hc]
      exact (hcwf n _ hc).2.1 lv hlv

theorem active_placed {s : State UOp ROp Ret NRSt} {n : ℕ} {c : CombinerState} {r : ℕ}
    (hcwf : ∀ n2 c2, s.combiner n2 = some c2 → wf_combiner_for_node_id s n2 c2)
    (hc : s.combiner n = some c) (hr : r ∈ activeQueue c) :
    ∃ op idx, s.local_updates r = some (.placed op idx) := by
  have hw := hcwf n c hc
  cases c with
  | ready => simp [activeQueue] at hr
  | placed q => exact hw.2.1 r (by simpa [activeQueue, List.drop_zero] using hr)
  | loadedLocalVersion q lv => exact hw.2.2.1 r (by simpa [activeQueue, List.drop_zero] using hr)
  | loop q lv idx gt => exact hw.2.2.2.2.2.2.1 r (by simpa [activeQueue] using hr)
  | updatedVersion q gt => simp [activeQueue] at hr

theorem combiner_wf_after_u_change (s : State UOp ROp Ret NRSt)
    (u2 : ℕ → Option (UpdateState UOp Ret)) (P : ℕ → Prop)
    (hcwf : ∀ n2 c2, s.combiner n2 = some c2 → wf_combiner_for_node_id s n2 c2)
    (hu : ∀ n c, P n → s.combiner n = some c → ∀ r ∈ activeQueue c, u2 r = s.local_updates r) :
    ∀ n c, P n → s.combiner n = some c →
      wf_combiner_for_node_id { s with local_updates := u2 } n c := by
  intro n c hP hc
  have hw := hcwf n c hc
  have hagree := hu n c hP hc
  cases c with
  | ready => exact hw
  | placed q =>
    obtain ⟨h1, h2, h3⟩ := hw
    refine ⟨?_, ?_, h3⟩
    · intro lv hlv
      exact LogRangeMatchesQueue_agree (fun i _ _ => rfl)
        (fun r hr => hagree r (by simpa [activeQueue, List.drop_zero] using hr)) (h1 lv hlv)
    · intro r hr
      show ∃ op idx, u2 r = some (.placed op idx)
      rw [hagree r (by simpa [activeQueue, List.drop_zero] using hr)]
      exact h2 r hr
  | loadedLocalVersion q lv =>
    obtain ⟨h1, h2, h3, h4⟩ := hw
    refine ⟨h1, ?_, ?_, h4⟩
    · exact LogRangeMatchesQueue_agree (fun i _ _ => rfl)
        (fun r hr => hagree r (by simpa [activeQueue, List.drop_zero] using hr)) h2
    · intro r hr
      show ∃ op idx, u2 r = some (.placed op idx)
      rw [hagree r (by simpa [activeQueue, List.drop_zero] using hr)]
      exact h3 r hr
  | loop q lv idx gt =>
    obtain ⟨h1, h2, h3, h4, h5, h6, h7, h8⟩ := hw
    refine ⟨h1, h2, h3, h4, ?_, h6, ?_, h8⟩
    · exact LogRangeMatchesQueue_agree (fun i _ _ => rfl)
        (fun r hr => hagree r (by simpa [activeQueue] using hr)) h5
    · intro r hr
      show ∃ op idx, u2 r = some (.placed op idx)
      rw [hagree r (by simpa [activeQueue] using hr)]
      exact h7 r hr
  | updatedVersion q gt => exact hw

theorem inv_readonly_start {s : State UOp ROp Ret NRSt} {rid : ℕ} {op : ROp}
    (hinv : Inv s) (hfresh : s.local_reads rid = none) :
    Inv { s with local_reads := mupd s.local_reads rid (.init op) } := by
  obtain ⟨d1, d2, d3, d4, d5, d6, d7, d8⟩ := hinv
  refine ⟨d1, d2, d3, d4, d5, ?_, d7, d8⟩
  intro rid2 r hr
  replace hr : mupd s.local_reads rid (ReadonlyState.init op) rid2 = some r := hr
  by_cases heq : rid2 = rid
  · subst heq
    rw [mupd_same] at hr
    cases hr
    trivial
  · rw [mupd_other _ _ _ _ heq] at hr
    exact d6 rid2 r hr

theorem inv_readonly_read_ctail {s : State UOp ROp Ret NRSt} {rid : ℕ} {op : ROp}
    (hinv : Inv s) (hrd : s.local_reads rid = some (.init op)) :
    Inv { s with local_reads := mupd s.local_reads rid (.versionUpperBound op s.version_upper_bound) } := by
  obtain ⟨d1, d2, d3, d4, d5, d6, d7, d8⟩ := hinv
  refine ⟨d1, d2, d3, d4, d5, ?_, d7, d8⟩
  intro rid2 r hr
  replace hr : mupd s.local_reads rid
      (ReadonlyState.versionUpperBound op s.version_upper_bound) rid2 = some r := hr
  by_cases heq : rid2 = rid
  · subst heq
    rw [mupd_same] at hr
    cases hr
    exact le_rfl
  · rw [mupd_other _ _ _ _ heq] at hr
    exact d6 rid2 r hr

theorem inv_readonly_ready_to_read {s : State UOp ROp Ret NRSt}
    {rid node_id : ℕ} {op : ROp} {version_upper_bound local_head : ℕ}
    (hinv : Inv s)
    (hrd : s.local_reads rid = some (.versionUpperBound op version_upper_bound))
    (hlv : s.local_versions node_id = some local_head)
    (hge : local_head ≥ version_upper_bound) :
    Inv { s with local_reads := mupd s.local_reads rid (.readyToRead op node_id version_upper_bound) } := by
  obtain ⟨d1, d2, d3, d4, d5, d6, d7, d8⟩ := hinv
  refine ⟨d1, d2, d3, d4, d5, ?_, d7, d8⟩
  intro rid2 r hr
  replace hr : mupd s.local_reads rid
      (ReadonlyState.readyToRead op node_id version_upper_bound) rid2 = some r := hr
  by_cases heq : rid2 = rid
  · subst heq
    rw [mupd_same] at hr
    cases hr
    have hvle : version_upper_bound ≤ s.version_upper_bound := d6 rid2 _ hrd
    have hlvs : (s.local_versions node_id).isSome := by rw [hlv]; rfl
    have hsome : (s.combiner node_id).isSome := (d1 node_id).mp hlvs
    have hclv : version_upper_bound ≤ current_local_version s node_id :=
      le_trans hge (lv_le_current_local_version d7 hlv)
    exact ⟨⟨hsome, hlvs, (d2 node_id).mpr hsome⟩, hvle, hclv⟩
  · rw [mupd_other _ _ _ _ heq] at hr
    exact d6 rid2 r hr

theorem inv_readonly_apply {s : State UOp ROp Ret NRSt}
    {rid node_id version_upper_bound : ℕ} {op : ROp} {ret : Ret}
    (hinv : Inv s)
    (hrd : s.local_reads rid = some (.readyToRead op node_id version_upper_bound)) :
    Inv { s with local_reads := mupd s.local_reads rid (.done op ret node_id version_upper_bound) } := by
  obtain ⟨d1, d2, d3, d4, d5, d6, d7, d8⟩ := hinv
  refine ⟨d1, d2, d3, d4, d5, ?_, d7, d8⟩
  intro rid2 r hr
  replace hr : mupd s.local_reads rid
      (ReadonlyState.done op ret node_id version_upper_bound) rid2 = some r := hr
  by_cases heq : rid2 = rid
  · subst heq
    rw [mupd_same] at hr
    cases hr
    exact d6 rid2 _ hrd
  · rw [mupd_other _ _ _ _ heq] at hr
    exact d6 rid2 r hr

theorem inv_readonly_finish {s : State UOp ROp Ret NRSt} {rid : ℕ}
    (hinv : Inv s) :
    Inv { s with local_reads := mdel s.local_reads rid } := by
  obtain ⟨d1, d2, d3, d4, d5, d6, d7, d8⟩ := hinv
  refine ⟨d1, d2, d3, d4, d5, ?_, d7, d8⟩
  intro rid2 r hr
  replace hr : mdel s.local_reads rid rid2 = some r := hr
  by_cases heq : rid2 = rid
  · subst heq
    rw [mdel_same] at hr
    cases hr
  · rw [mdel_other _ _ _ heq] at hr
    exact d6 rid2 r hr

theorem inv_update_start {s : State UOp ROp Ret NRSt} {rid : ℕ} {op : UOp}
    (hinv : Inv s) (hfresh : s.local_updates rid = none) :
    Inv { s with local_updates := mupd s.local_updates rid (.init op) } := by
  obtain ⟨d1, d2, d3, d4, d5, d6, d7, d8⟩ := hinv
  refine ⟨d1, d2, d3, d4, d5, d6, ?_, d8⟩
  intro n c hc
  replace hc : s.combiner n = some c := hc
  refine combiner_wf_after_u_change s (mupd s.local_updates rid (.init op)) (fun _ => True) d7 ?_ n c trivial hc
  intro n c _ hc r hr
  obtain ⟨op2, idx2, hp⟩ := active_placed d7 hc hr
  have hne : r ≠ rid := by
    intro heq
    rw [heq, hfresh] at hp
    cases hp
  rw [mupd_other _ _ _ _ hne]

theorem inv_update_done {s : State UOp ROp Ret NRSt} {rid idx : ℕ} {ret : Ret}
    (hinv : Inv s) (hupd : s.local_updates rid = some (.applied ret idx)) :
    Inv { s with local_updates := mupd s.local_updates rid (.done ret idx) } := by
  obtain ⟨d1, d2, d3, d4, d5, d6, d7, d8⟩ := hinv
  refine ⟨d1, d2, d3, d4, d5, d6, ?_, d8⟩
  intro n c hc
  replace hc : s.combiner n = some c := hc
  refine combiner_wf_after_u_change s (mupd s.local_updates rid (.done ret idx)) (fun _ => True) d7 ?_ n c trivial hc
  intro n c _ hc r hr
  obtain ⟨op2, idx2, hp⟩ := active_placed d7 hc hr
  have hne : r ≠ rid := by
    intro heq
    rw [heq, hupd] at hp
    cases hp
  rw [mupd_other _ _ _ _ hne]

theorem inv_update_finish {s : State UOp ROp Ret NRSt} {rid idx : ℕ} {ret : Ret}
    (hinv : Inv s) (hupd : s.local_updates rid = some (.done ret idx)) :
    Inv { s with local_updates := mdel s.local_updates rid } := by
  obtain ⟨d1, d2, d3, d4, d5, d6, d7, d8⟩ := hinv
  refine ⟨d1, d2, d3, d4, d5, d6, ?_, d8⟩
  intro n c hc
  replace hc : s.combiner n = some c := hc
  refine combiner_wf_after_u_change s (mdel s.local_updates rid) (fun _ => True) d7 ?_ n c trivial hc
  intro n c _ hc r hr
  obtain ⟨op2, idx2, hp⟩ := active_placed d7 hc hr
  have hne : r ≠ rid := by
    intro heq
    rw [heq, hupd] at hp
    cases hp
  rw [mdel_other _ _ _ hne]

theorem wf_readstate_mono (s s2 : State UOp ROp Ret NRSt)
    (hn : ∀ n, wf_node_id s n → wf_node_id s2 n)
    (hv : s.version_upper_bound ≤ s2.version_upper_bound)
    (hc : ∀ n, current_local_version s n ≤ current_local_version s2 n)
    {r : ReadonlyState ROp Ret} (h : wf_readstate s r) : wf_readstate s2 r := by
  cases r with
  | init _ => trivial
  | versionUpperBound _ v => exact le_trans h hv
  | readyToRead _ n v => exact ⟨hn n h.1, le_trans h.2.1 hv, le_trans h.2.2 (hc n)⟩
  | done _ _ n v => exact ⟨hn n h.1, le_trans h.2.1 hv, le_trans h.2.2 (hc n)⟩

theorem current_local_version_congr (s s2 : State UOp ROp Ret NRSt) (n : ℕ)
    (hcomb : s2.combiner n = s.combiner n)
    (hlv : s2.local_versions n = s.local_versions n) :
    current_local_version s2 n = current_local_version s n := by
  unfold current_local_version
  rw [hcomb, hlv]

theorem iff_isSome_mupd {V : Type} (m : ℕ → Option V) (n : ℕ) (v : V) (P : ℕ → Prop)
    (h : ∀ k, P k ↔ (m k).isSome) (hn : P n) :
    ∀ k, P k ↔ ((mupd m n v) k).isSome := by
  intro k
  by_cases hk : k = n
  · subst hk
    rw [mupd_same]
    exact ⟨fun _ => rfl, fun _ => hn⟩
  · rw [mupd_other _ _ _ _ hk]
    exact h k

theorem active_disjoint_after_mupd (s : State UOp ROp Ret NRSt) (n : ℕ)
    (c c2 : CombinerState)
    (d8 : ∀ n1 n2 c1 c2, n1 ≠ n2 → s.combiner n1 = some c1 →
      s.combiner n2 = some c2 → ∀ r, r ∈ activeQueue c1 → r ∉ activeQueue c2)
    (hcomb : s.combiner n = some c)
    (hsub : ∀ r, r ∈ activeQueue c2 → r ∈ activeQueue c) :
    ∀ n1 n2 c3 c4, n1 ≠ n2 → (mupd s.combiner n c2) n1 = some c3 →
      (mupd s.combiner n c2) n2 = some c4 →
      ∀ r, r ∈ activeQueue c3 → r ∉ activeQueue c4 := by
  intro n1 n2 c3 c4 hne h1 h2 r hr1 hr2
  by_cases e1 : n1 = n
  · subst e1
    rw [mupd_same] at h1
    cases h1
    rw [mupd_other _ _ _ _ (fun hh : n2 = n1 => hne hh.symm)] at h2
    exact d8 n1 n2 c c4 hne hcomb h2 r (hsub r hr1) hr2
  · rw [mupd_other _ _ _ _ e1] at h1
    by_cases e2 : n2 = n
    · subst e2
      rw [mupd_same] at h2
      cases h2
      exact d8 n1 n2 c3 c hne h1 hcomb r hr1 (hsub r hr2)
    · rw [mupd_other _ _ _ _ e2] at h2
      exact d8 n1 n2 c3 c4 hne h1 h2 r hr1 hr2

theorem inv_exec_trivial_start {s : State UOp ROp Ret NRSt} {node_id : ℕ}
    (hinv : Inv s) (hcomb : s.combiner node_id = some .ready) :
    Inv { s with combiner := mupd s.combiner node_id (.placed []) } := by
  obtain ⟨d1, d2, d3, d4, d5, d6, d7, d8⟩ := hinv
  have hsome : (s.combiner node_id).isSome := by rw [hcomb]; rfl
  refine ⟨?_, ?_, d3, d4, d5, ?_, ?_, ?_⟩
  · exact iff_isSome_mupd s.combiner node_id _ _ d1 ((d1 node_id).mpr hsome)
  · exact iff_isSome_mupd s.combiner node_id _ _ d2 ((d2 node_id).mpr hsome)
  · intro rid r hr
    replace hr : s.local_reads rid = some r := hr
    refine wf_readstate_mono s _ ?_ (by exact le_rfl) ?_ (d6 rid r hr)
    · intro k hk
      refine ⟨?_, hk.2.1, hk.2.2⟩
      by_cases hkn : k = node_id
      · subst hkn
        show (mupd s.combiner k (.placed []) k).isSome
        rw [mupd_same]; rfl
      · show (mupd s.combiner node_id (.placed []) k).isSome
        rw [mupd_other _ _ _ _ hkn]; exact hk.1
    · intro k
      by_cases hkn : k = node_id
      · subst hkn
        have h1 : current_local_version s k = (s.local_versions k).getD 0 := by
          simp [current_local_version, hcomb]
        have h2 : current_local_version
            { s with combiner := mupd s.combiner k (.placed []) } k =
            (s.local_versions k).getD 0 := by
          simp [current_local_version, mupd_same]
        rw [h1, h2]
      · have hcg : current_local_version { s with combiner := mupd s.combiner node_id (.placed []) } k = current_local_version s k := current_local_version_congr s _ k (by exact mupd_other _ _ _ _ hkn) (by exact rfl)
        rw [hcg]
  · intro n2 c hc
    replace hc : mupd s.combiner node_id (.placed []) n2 = some c := hc
    by_cases hn2 : n2 = node_id
    · subst hn2
      rw [mupd_same] at hc
      cases hc
      have hrdy := d7 n2 _ hcomb
      refine ⟨?_, ?_, List.nodup_nil⟩
      · intro lv hlv
        replace hlv : s.local_versions n2 = some lv := hlv
        exact LogRangeMatchesQueue_of_LogRangeNoNodeId
          (le_trans (d4 n2 lv hlv) d3) (hrdy lv hlv)
      · intro r hr
        simp at hr
    · rw [mupd_other _ _ _ _ hn2] at hc
      exact d7 n2 c hc
  · exact active_disjoint_after_mupd s node_id _ _ d8 hcomb (fun r hr => by simp [activeQueue] at hr)

theorem inv_exec_load_local_version {s : State UOp ROp Ret NRSt} {node_id : ℕ}
    {queued_ops : List ℕ} {lversion : ℕ}
    (hinv : Inv s) (hcomb : s.combiner node_id = some (.placed queued_ops))
    (hlv : s.local_versions node_id = some lversion) :
    Inv { s with combiner := mupd s.combiner node_id (.loadedLocalVersion queued_ops lversion) } := by
  obtain ⟨d1, d2, d3, d4, d5, d6, d7, d8⟩ := hinv
  have hsome : (s.combiner node_id).isSome := by rw [hcomb]; rfl
  refine ⟨?_, ?_, d3, d4, d5, ?_, ?_, ?_⟩
  · exact iff_isSome_mupd s.combiner node_id _ _ d1 ((d1 node_id).mpr hsome)
  · exact iff_isSome_mupd s.combiner node_id _ _ d2 ((d2 node_id).mpr hsome)
  · intro rid r hr
    replace hr : s.local_reads rid = some r := hr
    refine wf_readstate_mono s _ ?_ (by exact le_rfl) ?_ (d6 rid r hr)
    · intro k hk
      refine ⟨?_, hk.2.1, hk.2.2⟩
      by_cases hkn : k = node_id
      · subst hkn
        show (mupd s.combiner k (.loadedLocalVersion queued_ops lversion) k).isSome
        rw [mupd_same]; rfl
      · show (mupd s.combiner node_id (.loadedLocalVersion queued_ops lversion) k).isSome
        rw [mupd_other _ _ _ _ hkn]; exact hk.1
    · intro k
      by_cases hkn : k = node_id
      · subst hkn
        have h1 : current_local_version s k = (s.local_versions k).getD 0 := by
          simp [current_local_version, hcomb]
        have h2 : current_local_version
            { s with combiner := mupd s.combiner k (.loadedLocalVersion queued_ops lversion) } k =
            lversion := by
          simp [current_local_version, mupd_same]
        rw [h1, h2, hlv]
        simp
      · have hcg : current_local_version { s with combiner := mupd s.combiner node_id (.loadedLocalVersion queued_ops lversion) } k = current_local_version s k := current_local_version_congr s _ k (by exact mupd_other _ _ _ _ hkn) (by exact rfl)
        rw [hcg]
  · intro n2 c hc
    replace hc : mupd s.combiner node_id (.loadedLocalVersion queued_ops lversion) n2 = some c := hc
    by_cases hn2 : n2 = node_id
    · subst hn2
      rw [mupd_same] at hc
      cases hc
      obtain ⟨h1, h2, h3⟩ := d7 n2 _ hcomb
      exact ⟨hlv, h1 lversion hlv, h2, h3⟩
    · rw [mupd_other _ _ _ _ hn2] at hc
      exact d7 n2 c hc
  · refine active_disjoint_after_mupd s node_id _ _ d8 hcomb ?_
    intro r hr
    simpa [activeQueue] using hr

theorem inv_exec_load_global_head {s : State UOp ROp Ret NRSt} {node_id : ℕ}
    {queued_ops : List ℕ} {lversion : ℕ}
    (hinv : Inv s)
    (hcomb : s.combiner node_id = some (.loadedLocalVersion queued_ops lversion)) :
    Inv { s with combiner := mupd s.combiner node_id (.loop queued_ops lversion 0 s.global_tail) } := by
  obtain ⟨d1, d2, d3, d4, d5, d6, d7, d8⟩ := hinv
  have hsome : (s.combiner node_id).isSome := by rw [hcomb]; rfl
  refine ⟨?_, ?_, d3, d4, d5, ?_, ?_, ?_⟩
  · exact iff_isSome_mupd s.combiner node_id _ _ d1 ((d1 node_id).mpr hsome)
  · exact iff_isSome_mupd s.combiner node_id _ _ d2 ((d2 node_id).mpr hsome)
  · intro rid r hr
    replace hr : s.local_reads rid = some r := hr
    refine wf_readstate_mono s _ ?_ (by exact le_rfl) ?_ (d6 rid r hr)
    · intro k hk
      refine ⟨?_, hk.2.1, hk.2.2⟩
      by_cases hkn : k = node_id
      · subst hkn
        show (mupd s.combiner k (.loop queued_ops lversion 0 s.global_tail) k).isSome
        rw [mupd_same]; rfl
      · show (mupd s.combiner node_id (.loop queued_ops lversion 0 s.global_tail) k).isSome
        rw [mupd_other _ _ _ _ hkn]; exact hk.1
    · intro k
      by_cases hkn : k = node_id
      · subst hkn
        have h1 : current_local_version s k = lversion := by
          simp [current_local_version, hcomb]
        have h2 : current_local_version
            { s with combiner := mupd s.combiner k (.loop queued_ops lversion 0 s.global_tail) } k =
            lversion := by
          simp [current_local_version, mupd_same]
        rw [h1, h2]
      · have hcg : current_local_version { s with combiner := mupd s.combiner node_id (.loop queued_ops lversion 0 s.global_tail) } k = current_local_version s k := current_local_version_congr s _ k (by exact mupd_other _ _ _ _ hkn) (by exact rfl)
        rw [hcg]
  · intro n2 c hc
    replace hc : mupd s.combiner node_id (.loop queued_ops lversion 0 s.global_tail) n2 = some c := hc
    by_cases hn2 : n2 = node_id
    · subst hn2
      rw [mupd_same] at hc
      cases hc
      obtain ⟨h1, h2, h3, h4⟩ := d7 n2 _ hcomb
      refine ⟨le_rfl, ?_, ?_, Nat.zero_le _, h2, LogRangeNoNodeId_ge le_rfl, h3, h4⟩
      · intro l0 hl0
        replace hl0 : s.local_versions n2 = some l0 := hl0
        rw [h1] at hl0
        cases hl0
        exact le_rfl
      · exact le_trans (d4 n2 lversion h1) d3
    · rw [mupd_other _ _ _ _ hn2] at hc
      exact d7 n2 c hc
  · refine active_disjoint_after_mupd s node_id _ _ d8 hcomb ?_
    intro r hr
    simpa [activeQueue] using hr

theorem inv_exec_dispatch_remote {s : State UOp ROp Ret NRSt} {node_id : ℕ}
    {queued_ops : List ℕ} {lversion idx global_tail : ℕ} {st2 : NRSt}
    {log_entry : LogEntry UOp}
    (hinv : Inv s)
    (hcomb : s.combiner node_id = some (.loop queued_ops lversion idx global_tail))
    (hlog : s.log lversion = some log_entry)
    (hlt : lversion < global_tail)
    (hnode : log_entry.node_id ≠ node_id) :
    Inv { s with
      replicas := mupd s.replicas node_id st2
      combiner := mupd s.combiner node_id (.loop queued_ops (lversion + 1) idx global_tail) } := by
  obtain ⟨d1, d2, d3, d4, d5, d6, d7, d8⟩ := hinv
  have hsome : (s.combiner node_id).isSome := by rw [hcomb]; rfl
  refine ⟨?_, ?_, d3, d4, d5, ?_, ?_, ?_⟩
  · exact iff_isSome_mupd s.combiner node_id _ _ d1 ((d1 node_id).mpr hsome)
  · intro k
    by_cases hkn : k = node_id
    · subst hkn
      show (mupd s.replicas k st2 k).isSome ↔ (mupd s.combiner k _ k).isSome
      rw [mupd_same, mupd_same]
      simp
    · show (mupd s.replicas node_id st2 k).isSome ↔ (mupd s.combiner node_id _ k).isSome
      rw [mupd_other _ _ _ _ hkn, mupd_other _ _ _ _ hkn]
      exact d2 k
  · intro rid r hr
    replace hr : s.local_reads rid = some r := hr
    refine wf_readstate_mono s _ ?_ (by exact le_rfl) ?_ (d6 rid r hr)
    · intro k hk
      refine ⟨?_, hk.2.1, ?_⟩
      · by_cases hkn : k = node_id
        · subst hkn
          show (mupd s.combiner k (.loop queued_ops (lversion + 1) idx global_tail) k).isSome
          rw [mupd_same]; rfl
        · show (mupd s.combiner node_id (.loop queued_ops (lversion + 1) idx global_tail) k).isSome
          rw [mupd_other _ _ _ _ hkn]; exact hk.1
      · by_cases hkn : k = node_id
        · subst hkn
          show (mupd s.replicas k st2 k).isSome
          rw [mupd_same]; rfl
        · show (mupd s.replicas node_id st2 k).isSome
          rw [mupd_other _ _ _ _ hkn]; exact hk.2.2
    · intro k
      by_cases hkn : k = node_id
      · subst hkn
        have h1 : current_local_version s k = lversion := by
          simp [current_local_version, hcomb]
        have h2 : current_local_version
            { s with replicas := mupd s.replicas k st2, combiner := mupd s.combiner k (.loop queued_ops (lversion + 1) idx global_tail) } k = lversion + 1 := by
          simp [current_local_version, mupd_same]
        rw [h1, h2]
        omega
      · have hcg : current_local_version { s with replicas := mupd s.replicas node_id st2, combiner := mupd s.combiner node_id (.loop queued_ops (lversion + 1) idx global_tail) } k = current_local_version s k := current_local_version_congr s _ k (by exact mupd_other _ _ _ _ hkn) (by exact rfl)
        rw [hcg]
  · intro n2 c hc
    replace hc : mupd s.combiner node_id (.loop queued_ops (lversion + 1) idx global_tail) n2 = some c := hc
    by_cases hn2 : n2 = node_id
    · subst hn2
      rw [mupd_same] at hc
      cases hc
      obtain ⟨h1, h2, h3, h4, h5, h6, h7, h8⟩ := d7 n2 _ hcomb
      refine ⟨h1, ?_, by omega, h4, ?_, h6, h7, h8⟩
      · intro l0 hl0
        replace hl0 : s.local_versions n2 = some l0 := hl0
        exact le_trans (h2 l0 hl0) (by omega)
      · exact LogRangeMatchesQueue_step_remote h5 hlt hlog hnode
    · rw [mupd_other _ _ _ _ hn2] at hc
      exact d7 n2 c hc
  · refine active_disjoint_after_mupd s node_id _ _ d8 hcomb ?_
    intro r hr
    simpa [activeQueue] using hr

theorem wf_combiner_transport (s s2 : State UOp ROp Ret NRSt) (n : ℕ) (c : CombinerState)
    (hlog : s2.log = s.log) (hgt : s2.global_tail = s.global_tail)
    (hu : s2.local_updates = s.local_updates)
    (hv : s.version_upper_bound ≤ s2.version_upper_bound)
    (hlvn : s2.local_versions n = s.local_versions n)
    (h : wf_combiner_for_node_id s n c) : wf_combiner_for_node_id s2 n c := by
  cases c with
  | ready =>
    intro lv hlv
    rw [LogRangeNoNodeId, hlog, hgt, ← LogRangeNoNodeId]
    exact h lv (by rw [hlvn] at hlv; exact hlv)
  | placed q =>
    refine ⟨?_, ?_, h.2.2⟩
    · intro lv hlv
      show LogRangeMatchesQueue q s2.log 0 lv s2.global_tail n s2.local_updates
      rw [hlog, hgt, hu]
      exact h.1 lv (by rw [hlvn] at hlv; exact hlv)
    · show QueueRidsUpdatePlaced q s2.local_updates 0
      rw [hu]
      exact h.2.1
  | loadedLocalVersion q lv =>
    refine ⟨by rw [hlvn]; exact h.1, ?_, ?_, h.2.2.2⟩
    · show LogRangeMatchesQueue q s2.log 0 lv s2.global_tail n s2.local_updates
      rw [hlog, hgt, hu]
      exact h.2.1
    · show QueueRidsUpdatePlaced q s2.local_updates 0
      rw [hu]
      exact h.2.2.1
  | loop q lv idx gt =>
    obtain ⟨h1, h2, h3, h4, h5, h6, h7, h8⟩ := h
    refine ⟨by rw [hgt]; exact h1, ?_, h3, h4, ?_, ?_, ?_, h8⟩
    · intro l0 hl0
      exact h2 l0 (by rw [hlvn] at hl0; exact hl0)
    · show LogRangeMatchesQueue q s2.log idx lv gt n s2.local_updates
      rw [hlog, hu]
      exact h5
    · show LogRangeNoNodeId s2.log gt s2.global_tail n
      rw [hlog, hgt]
      exact h6
    · show QueueRidsUpdatePlaced q s2.local_updates idx
      rw [hu]
      exact h7
  | updatedVersion q gt =>
    obtain ⟨h1, h2, h3, h4⟩ := h
    refine ⟨le_trans h1 hv, ?_, ?_, h4⟩
    · intro l0 hl0
      exact h2 l0 (by rw [hlvn] at hl0; exact hl0)
    · show LogRangeNoNodeId s2.log gt s2.global_tail n
      rw [hlog, hgt]
      exact h3

theorem inv_exec_update_version_upper_bound {s : State UOp ROp Ret NRSt}
    {node_id : ℕ} {queued_ops : List ℕ} {lversion idx global_tail : ℕ}
    (hinv : Inv s)
    (hcomb : s.combiner node_id = some (.loop queued_ops lversion idx global_tail))
    (heq : lversion = global_tail) :
    Inv { s with
      version_upper_bound := if s.version_upper_bound ≥ global_tail then s.version_upper_bound else global_tail
      combiner := mupd s.combiner node_id (.updatedVersion queued_ops global_tail) } := by
  obtain ⟨d1, d2, d3, d4, d5, d6, d7, d8⟩ := hinv
  obtain ⟨h1, h2, h3, h4, h5, h6, h7, h8⟩ := d7 node_id _ hcomb
  have hsome : (s.combiner node_id).isSome := by rw [hcomb]; rfl
  have hvle : s.version_upper_bound ≤
      (if s.version_upper_bound ≥ global_tail then s.version_upper_bound else global_tail) := by
    split <;> omega
  have hgtle : global_tail ≤
      (if s.version_upper_bound ≥ global_tail then s.version_upper_bound else global_tail) := by
    split <;> omega
  refine ⟨?_, ?_, ?_, ?_, d5, ?_, ?_, ?_⟩
  · exact iff_isSome_mupd s.combiner node_id _ _ d1 ((d1 node_id).mpr hsome)
  · exact iff_isSome_mupd s.combiner node_id _ _ d2 ((d2 node_id).mpr hsome)
  · show (if s.version_upper_bound ≥ global_tail then s.version_upper_bound else global_tail) ≤ s.global_tail
    split <;> omega
  · intro n v hv
    replace hv : s.local_versions n = some v := hv
    exact le_trans (d4 n v hv) hvle
  · intro rid r hr
    replace hr : s.local_reads rid = some r := hr
    refine wf_readstate_mono s _ ?_ (by exact hvle) ?_ (d6 rid r hr)
    · intro k hk
      refine ⟨?_, hk.2.1, hk.2.2⟩
      by_cases hkn : k = node_id
      · subst hkn
        show (mupd s.combiner k (.updatedVersion queued_ops global_tail) k).isSome
        rw [mupd_same]; rfl
      · show (mupd s.combiner node_id (.updatedVersion queued_ops global_tail) k).isSome
        rw [mupd_other _ _ _ _ hkn]; exact hk.1
    · intro k
      by_cases hkn : k = node_id
      · subst hkn
        have hc1 : current_local_version s k = lversion := by
          simp [current_local_version, hcomb]
        have hc2 : current_local_version { s with version_upper_bound := if s.version_upper_bound ≥ global_tail then s.version_upper_bound else global_tail, combiner := mupd s.combiner k (.updatedVersion queued_ops global_tail) } k = global_tail := by
          simp [current_local_version, mupd_same]
        rw [hc1, hc2, heq]
      · have hcg : current_local_version { s with version_upper_bound := if s.version_upper_bound ≥ global_tail then s.version_upper_bound else global_tail, combiner := mupd s.combiner node_id (.updatedVersion queued_ops global_tail) } k = current_local_version s k := current_local_version_congr s _ k (by exact mupd_other _ _ _ _ hkn) (by exact rfl)
        rw [hcg]
  · intro n2 c hc
    replace hc : mupd s.combiner node_id (.updatedVersion queued_ops global_tail) n2 = some c := hc
    by_cases hn2 : n2 = node_id
    · subst hn2
      rw [mupd_same] at hc
      cases hc
      refine ⟨by exact hgtle, ?_, by exact h6, h8⟩
      intro l0 hl0
      replace hl0 : s.local_versions n2 = some l0 := hl0
      exact le_trans (h2 l0 hl0) (by omega)
    · rw [mupd_other _ _ _ _ hn2] at hc
      exact wf_combiner_transport s _ n2 c (by exact rfl) (by exact rfl) (by exact rfl)
        (by exact hvle) (by exact rfl) (d7 n2 c hc)
  · refine active_disjoint_after_mupd s node_id _ _ d8 hcomb ?_
    intro r hr
    simp [activeQueue] at hr

theorem inv_exec_finish {s : State UOp ROp Ret NRSt} {node_id : ℕ}
    {queued_ops : List ℕ} {global_tail old_local_head : ℕ}
    (hinv : Inv s)
    (hcomb : s.combiner node_id = some (.updatedVersion queued_ops global_tail))
    (hlv : s.local_versions node_id = some old_local_head) :
    Inv { s with
      local_versions := mupd s.local_versions node_id global_tail
      combiner := mupd s.combiner node_id .ready } := by
  obtain ⟨d1, d2, d3, d4, d5, d6, d7, d8⟩ := hinv
  obtain ⟨u1, u2, u3, u4⟩ := d7 node_id _ hcomb
  have hsome : (s.combiner node_id).isSome := by rw [hcomb]; rfl
  refine ⟨?_, ?_, d3, ?_, d5, ?_, ?_, ?_⟩
  · intro k
    by_cases hkn : k = node_id
    · subst hkn
      show (mupd s.local_versions k global_tail k).isSome ↔ (mupd s.combiner k .ready k).isSome
      rw [mupd_same, mupd_same]
      simp
    · show (mupd s.local_versions node_id global_tail k).isSome ↔ (mupd s.combiner node_id .ready k).isSome
      rw [mupd_other _ _ _ _ hkn, mupd_other _ _ _ _ hkn]
      exact d1 k
  · intro k
    by_cases hkn : k = node_id
    · subst hkn
      show (s.replicas k).isSome ↔ (mupd s.combiner k .ready k).isSome
      rw [mupd_same]
      simp [(d2 k).mpr hsome]
    · show (s.replicas k).isSome ↔ (mupd s.combiner node_id .ready k).isSome
      rw [mupd_other _ _ _ _ hkn]
      exact d2 k
  · intro n v hv
    replace hv : mupd s.local_versions node_id global_tail n = some v := hv
    by_cases hkn : n = node_id
    · subst hkn
      rw [mupd_same] at hv
      cases hv
      exact u1
    · rw [mupd_other _ _ _ _ hkn] at hv
      exact d4 n v hv
  · intro rid r hr
    replace hr : s.local_reads rid = some r := hr
    refine wf_readstate_mono s _ ?_ (by exact le_rfl) ?_ (d6 rid r hr)
    · intro k hk
      refine ⟨?_, ?_, hk.2.2⟩
      · by_cases hkn : k = node_id
        · subst hkn
          show (mupd s.combiner k .ready k).isSome
          rw [mupd_same]; rfl
        · show (mupd s.combiner node_id .ready k).isSome
          rw [mupd_other _ _ _ _ hkn]; exact hk.1
      · by_cases hkn : k = node_id
        · subst hkn
          show (mupd s.local_versions k global_tail k).isSome
          rw [mupd_same]; rfl
        · show (mupd s.local_versions node_id global_tail k).isSome
          rw [mupd_other _ _ _ _ hkn]; exact hk.2.1
    · intro k
      by_cases hkn : k = node_id
      · subst hkn
        have hc1 : current_local_version s k = global_tail := by
          simp [current_local_version, hcomb]
        have hc2 : current_local_version { s with local_versions := mupd s.local_versions k global_tail, combiner := mupd s.combiner k .ready } k = global_tail := by
          simp [current_local_version, mupd_same, mupd]
        rw [hc1, hc2]
      · have hcg : current_local_version { s with local_versions := mupd s.local_versions node_id global_tail, combiner := mupd s.combiner node_id .ready } k = current_local_version s k := current_local_version_congr s _ k (by exact mupd_other _ _ _ _ hkn) (by exact mupd_other _ _ _ _ hkn)
        rw [hcg]
  · intro n2 c hc
    replace hc : mupd s.combiner node_id .ready n2 = some c := hc
    by_cases hn2 : n2 = node_id
    · subst hn2
      rw [mupd_same] at hc
      cases hc
      intro lv2 hlv2
      replace hlv2 : mupd s.local_versions n2 global_tail n2 = some lv2 := hlv2
      rw [mupd_same] at hlv2
      cases hlv2
      exact u3
    · rw [mupd_other _ _ _ _ hn2] at hc
      exact wf_combiner_transport s _ n2 c (by exact rfl) (by exact rfl) (by exact rfl)
        (by exact le_rfl) (by exact mupd_other _ _ _ _ hn2) (d7 n2 c hc)
  · refine active_disjoint_after_mupd s node_id _ _ d8 hcomb ?_
    intro r hr
    simp [activeQueue] at hr

theorem inv_exec_dispatch_local {s : State UOp ROp Ret NRSt} {node_id : ℕ}
    {queued_ops : List ℕ} {lversion idx global_tail rid : ℕ}
    {st2 : NRSt} {ret : Ret} {log_entry : LogEntry UOp}
    (hinv : Inv s)
    (hcomb : s.combiner node_id = some (.loop queued_ops lversion idx global_tail))
    (hrid : queued_ops.getD idx 0 = rid)
    (hidx : idx < queued_ops.length)
    (hlog : s.log lversion = some log_entry)
    (hlt : lversion < global_tail)
    (hnode : log_entry.node_id = node_id) :
    Inv { s with
      local_updates := mupd s.local_updates rid (.applied ret lversion)
      replicas := mupd s.replicas node_id st2
      combiner := mupd s.combiner node_id (.loop queued_ops (lversion + 1) (idx + 1) global_tail) } := by
  obtain ⟨d1, d2, d3, d4, d5, d6, d7, d8⟩ := hinv
  obtain ⟨h1, h2, h3, h4, h5, h6, h7, h8⟩ := d7 node_id _ hcomb
  have hsome : (s.combiner node_id).isSome := by rw [hcomb]; rfl
  have hmem : rid ∈ queued_ops.drop idx := hrid ▸ getD_mem_drop hidx
  have hnotin : rid ∉ queued_ops.drop (idx + 1) :=
    hrid ▸ nodup_getD_notin_drop_succ h8 hidx
  have hactive : rid ∈ activeQueue (CombinerState.loop queued_ops lversion idx global_tail) := by
    simpa [activeQueue] using hmem
  refine ⟨?_, ?_, d3, d4, d5, ?_, ?_, ?_⟩
  · exact iff_isSome_mupd s.combiner node_id _ _ d1 ((d1 node_id).mpr hsome)
  · intro k
    by_cases hkn : k = node_id
    · subst hkn
      show (mupd s.replicas k st2 k).isSome ↔ (mupd s.combiner k _ k).isSome
      rw [mupd_same, mupd_same]
      simp
    · show (mupd s.replicas node_id st2 k).isSome ↔ (mupd s.combiner node_id _ k).isSome
      rw [mupd_other _ _ _ _ hkn, mupd_other _ _ _ _ hkn]
      exact d2 k
  · intro rid2 r hr
    replace hr : s.local_reads rid2 = some r := hr
    refine wf_readstate_mono s _ ?_ (by exact le_rfl) ?_ (d6 rid2 r hr)
    · intro k hk
      refine ⟨?_, hk.2.1, ?_⟩
      · by_cases hkn : k = node_id
        · subst hkn
          show (mupd s.combiner k (.loop queued_ops (lversion + 1) (idx + 1) global_tail) k).isSome
          rw [mupd_same]; rfl
        · show (mupd s.combiner node_id (.loop queued_ops (lversion + 1) (idx + 1) global_tail) k).isSome
          rw [mupd_other _ _ _ _ hkn]; exact hk.1
      · by_cases hkn : k = node_id
        · subst hkn
          show (mupd s.replicas k st2 k).isSome
          rw [mupd_same]; rfl
        · show (mupd s.replicas node_id st2 k).isSome
          rw [mupd_other _ _ _ _ hkn]; exact hk.2.2
    · intro k
      by_cases hkn : k = node_id
      · subst hkn
        have hc1 : current_local_version s k = lversion := by
          simp [current_local_version, hcomb]
        have hc2 : current_local_version { s with local_updates := mupd s.local_updates rid (.applied ret lversion), replicas := mupd s.replicas k st2, combiner := mupd s.combiner k (.loop queued_ops (lversion + 1) (idx + 1) global_tail) } k = lversion + 1 := by
          simp [current_local_version, mupd_same]
        rw [hc1, hc2]
        omega
      · have hcg : current_local_version { s with local_updates := mupd s.local_updates rid (.applied ret lversion), replicas := mupd s.replicas node_id st2, combiner := mupd s.combiner node_id (.loop queued_ops (lversion + 1) (idx + 1) global_tail) } k = current_local_version s k := current_local_version_congr s _ k (by exact mupd_other _ _ _ _ hkn) (by exact rfl)
        rw [hcg]
  · intro n2 c hc
    replace hc : mupd s.combiner node_id (.loop queued_ops (lversion + 1) (idx + 1) global_tail) n2 = some c := hc
    by_cases hn2 : n2 = node_id
    · subst hn2
      rw [mupd_same] at hc
      cases hc
      obtain ⟨hq, ⟨opx, hopx⟩, hrec⟩ := LogRangeMatchesQueue_step_local h5 hlt hlog hnode
      refine ⟨h1, ?_, by omega, by omega, ?_, h6, ?_, h8⟩
      · intro l0 hl0
        replace hl0 : s.local_versions n2 = some l0 := hl0
        exact le_trans (h2 l0 hl0) (by omega)
      · show LogRangeMatchesQueue queued_ops s.log (idx + 1) (lversion + 1) global_tail n2
          (mupd s.local_updates rid (.applied ret lversion))
        refine LogRangeMatchesQueue_agree (fun i _ _ => rfl) ?_ hrec
        intro r hr
        exact mupd_other _ _ _ _ (fun hreq : r = rid => hnotin (hreq ▸ hr))
      · show QueueRidsUpdatePlaced queued_ops (mupd s.local_updates rid (.applied ret lversion)) (idx + 1)
        intro r hr
        rw [mupd_other _ _ _ _ (fun hreq : r = rid => hnotin (hreq ▸ hr))]
        exact h7 r (mem_drop_of_mem_drop_succ hr)
    · rw [mupd_other _ _ _ _ hn2] at hc
      refine combiner_wf_after_u_change s (mupd s.local_updates rid (.applied ret lversion))
        (fun k => k ≠ node_id) d7 ?_ n2 c hn2 hc
      intro n3 c3 hn3 hc3 r hr
      have : r ≠ rid := by
        intro hreq
        exact (d8 n3 node_id c3 _ hn3 hc3 hcomb r hr) (hreq ▸ hactive)
      exact mupd_other _ _ _ _ this
  · refine active_disjoint_after_mupd s node_id _ _ d8 hcomb ?_
    intro r hr
    simp only [activeQueue] at hr ⊢
    exact mem_drop_of_mem_drop_succ hr

theorem inv_update_place_ops_in_log_one {s : State UOp ROp Ret NRSt}
    {node_id rid : ℕ} {queued_ops : List ℕ} {op : UOp}
    (hinv : Inv s)
    (hcomb : s.combiner node_id = some (.placed queued_ops))
    (hupd : s.local_updates rid = some (.init op)) :
    Inv { s with
      global_tail := s.global_tail + 1
      log := mupd s.log s.global_tail ⟨op, node_id⟩
      local_updates := mupd s.local_updates rid (.placed op s.global_tail)
      combiner := mupd s.combiner node_id (.placed (queued_ops ++ [rid])) } := by
  obtain ⟨d1, d2, d3, d4, d5, d6, d7, d8⟩ := hinv
  obtain ⟨p1, p2, p3⟩ := d7 node_id _ hcomb
  have hsome : (s.combiner node_id).isSome := by rw [hcomb]; rfl
  have hne_of_active : ∀ n2 c2 r, s.combiner n2 = some c2 → r ∈ activeQueue c2 → r ≠ rid := by
    intro n2 c2 r hc2 hr hreq
    obtain ⟨o, i, hp⟩ := active_placed d7 hc2 hr
    rw [hreq, hupd] at hp
    cases hp
  have hridq : rid ∉ queued_ops := by
    intro hr
    exact hne_of_active node_id _ rid hcomb (by simpa [activeQueue] using hr) rfl
  have hlogagree : ∀ i, i < s.global_tail → mupd s.log s.global_tail ⟨op, node_id⟩ i = s.log i := by
    intro i hi
    exact mupd_other _ _ _ _ (by omega)
  have hlogtop : mupd s.log s.global_tail ⟨op, node_id⟩ s.global_tail = some ⟨op, node_id⟩ :=
    mupd_same _ _ _
  have huagree : ∀ n2 c2, s.combiner n2 = some c2 → ∀ r ∈ activeQueue c2,
      mupd s.local_updates rid (.placed op s.global_tail) r = s.local_updates r := by
    intro n2 c2 hc2 r hr
    exact mupd_other _ _ _ _ (hne_of_active n2 c2 r hc2 hr)
  refine ⟨?_, ?_, ?_, d4, ?_, ?_, ?_, ?_⟩
  · exact iff_isSome_mupd s.combiner node_id _ _ d1 ((d1 node_id).mpr hsome)
  · exact iff_isSome_mupd s.combiner node_id _ _ d2 ((d2 node_id).mpr hsome)
  · show s.version_upper_bound ≤ s.global_tail + 1
    omega
  · intro i
    show (mupd s.log s.global_tail ⟨op, node_id⟩ i).isSome ↔ i < s.global_tail + 1
    by_cases hi : i = s.global_tail
    · subst hi
      rw [mupd_same]
      simp
    · rw [mupd_other _ _ _ _ hi]
      rw [d5 i]
      omega
  · intro rid2 r hr
    replace hr : s.local_reads rid2 = some r := hr
    refine wf_readstate_mono s _ ?_ (by exact le_rfl) ?_ (d6 rid2 r hr)
    · intro k hk
      refine ⟨?_, hk.2.1, hk.2.2⟩
      by_cases hkn : k = node_id
      · subst hkn
        show (mupd s.combiner k (.placed (queued_ops ++ [rid])) k).isSome
        rw [mupd_same]; rfl
      · show (mupd s.combiner node_id (.placed (queued_ops ++ [rid])) k).isSome
        rw [mupd_other _ _ _ _ hkn]; exact hk.1
    · intro k
      by_cases hkn : k = node_id
      · subst hkn
        have hc1 : current_local_version s k = (s.local_versions k).getD 0 := by
          simp [current_local_version, hcomb]
        have hc2 : current_local_version { s with global_tail := s.global_tail + 1, log := mupd s.log s.global_tail ⟨op, k⟩, local_updates := mupd s.local_updates rid (.placed op s.global_tail), combiner := mupd s.combiner k (.placed (queued_ops ++ [rid])) } k = (s.local_versions k).getD 0 := by
          simp [current_local_version, mupd_same]
        rw [hc1, hc2]
      · have hcg : current_local_version { s with global_tail := s.global_tail + 1, log := mupd s.log s.global_tail ⟨op, node_id⟩, local_updates := mupd s.local_updates rid (.placed op s.global_tail), combiner := mupd s.combiner node_id (.placed (queued_ops ++ [rid])) } k = current_local_version s k := current_local_version_congr s _ k (by exact mupd_other _ _ _ _ hkn) (by exact rfl)
        rw [hcg]
  · intro n2 c hc
    replace hc : mupd s.combiner node_id (.placed (queued_ops ++ [rid])) n2 = some c := hc
    by_cases hn2 : n2 = node_id
    · subst hn2
      rw [mupd_same] at hc
      cases hc
      refine ⟨?_, ?_, ?_⟩
      · intro lv2 hlv2
        replace hlv2 : s.local_versions n2 = some lv2 := hlv2
        have hle : lv2 ≤ s.global_tail := le_trans (d4 n2 lv2 hlv2) d3
        have step1 : LogRangeMatchesQueue queued_ops
            (mupd s.log s.global_tail ⟨op, n2⟩) 0 lv2 s.global_tail n2
            s.local_updates :=
          LogRangeMatchesQueue_agree (fun i h1 h2 => hlogagree i h2) (fun r hr => rfl)
            (p1 lv2 hlv2)
        show LogRangeMatchesQueue (queued_ops ++ [rid])
            (mupd s.log s.global_tail ⟨op, n2⟩) 0 lv2 (s.global_tail + 1) n2
            (mupd s.local_updates rid (.placed op s.global_tail))
        refine LogRangeMatchesQueue_append_local hle step1 hlogtop rfl
          (mupd_same _ _ _) ?_ ?_
        · intro r hr
          refine mupd_other _ _ _ _ ?_
          exact hne_of_active n2 _ r hcomb (by simpa [activeQueue] using hr)
        · simpa using hridq
      · intro r hr
        simp only [List.drop_zero] at hr
        rcases List.mem_append.mp hr with hq | hs
        · obtain ⟨o, i, hp⟩ := p2 r (by simpa using hq)
          refine ⟨o, i, ?_⟩
          show mupd s.local_updates rid (.placed op s.global_tail) r = some (.placed o i)
          rw [mupd_other _ _ _ _ (hne_of_active n2 _ r hcomb
            (by simpa [activeQueue] using hq))]
          exact hp
        · have hrr : r = rid := List.mem_singleton.mp hs
          subst hrr
          exact ⟨op, s.global_tail, mupd_same _ _ _⟩
      · refine List.Nodup.append p3 (List.nodup_singleton rid) ?_
        intro a ha hb
        rw [List.mem_singleton.mp hb] at ha
        exact hridq ha
    · rw [mupd_other _ _ _ _ hn2] at hc
      have hwf := d7 n2 c hc
      have hnid : (⟨op, node_id⟩ : LogEntry UOp).node_id ≠ n2 := by
        intro hx
        exact hn2 (by simpa using hx.symm)
      cases c with
      | ready =>
        intro lv2 hlv2
        replace hlv2 : s.local_versions n2 = some lv2 := hlv2
        have hle : lv2 ≤ s.global_tail := le_trans (d4 n2 lv2 hlv2) d3
        show LogRangeNoNodeId (mupd s.log s.global_tail ⟨op, node_id⟩) lv2 (s.global_tail + 1) n2
        refine LogRangeNoNodeId_extend hle ?_ hlogtop hnid
        exact LogRangeNoNodeId_agree (fun i h1 h2 => hlogagree i h2) (hwf lv2 hlv2)
      | placed q2 =>
        obtain ⟨w1, w2, w3⟩ := hwf
        refine ⟨?_, ?_, w3⟩
        · intro lv2 hlv2
          replace hlv2 : s.local_versions n2 = some lv2 := hlv2
          have hle : lv2 ≤ s.global_tail := le_trans (d4 n2 lv2 hlv2) d3
          show LogRangeMatchesQueue q2 (mupd s.log s.global_tail ⟨op, node_id⟩) 0 lv2
            (s.global_tail + 1) n2 (mupd s.local_updates rid (.placed op s.global_tail))
          refine LogRangeMatchesQueue_extend_remote hle ?_ hlogtop hnid
          refine LogRangeMatchesQueue_agree (fun i h1 h2 => hlogagree i h2) ?_ (w1 lv2 hlv2)
          intro r hr
          exact huagree n2 _ hc r (by simpa [activeQueue] using hr)
        · intro r hr
          show ∃ o i, mupd s.local_updates rid (.placed op s.global_tail) r = some (.placed o i)
          rw [huagree n2 _ hc r (by simpa [activeQueue] using hr)]
          exact w2 r hr
      | loadedLocalVersion q2 lv2 =>
        obtain ⟨w1, w2, w3, w4⟩ := hwf
        have hle : lv2 ≤ s.global_tail := le_trans (d4 n2 lv2 w1) d3
        refine ⟨w1, ?_, ?_, w4⟩
        · show LogRangeMatchesQueue q2 (mupd s.log s.global_tail ⟨op, node_id⟩) 0 lv2
            (s.global_tail + 1) n2 (mupd s.local_updates rid (.placed op s.global_tail))
          refine LogRangeMatchesQueue_extend_remote hle ?_ hlogtop hnid
          refine LogRangeMatchesQueue_agree (fun i h1 h2 => hlogagree i h2) ?_ w2
          intro r hr
          exact huagree n2 _ hc r (by simpa [activeQueue] using hr)
        · intro r hr
          show ∃ o i, mupd s.local_updates rid (.placed op s.global_tail) r = some (.placed o i)
          rw [huagree n2 _ hc r (by simpa [activeQueue] using hr)]
          exact w3 r hr
      | loop q2 lv2 idx2 gt2 =>
        obtain ⟨w1, w2, w3, w4, w5, w6, w7, w8⟩ := hwf
        refine ⟨by show gt2 ≤ s.global_tail + 1; omega, w2, w3, w4, ?_, ?_, ?_, w8⟩
        · show LogRangeMatchesQueue q2 (mupd s.log s.global_tail ⟨op, node_id⟩) idx2 lv2
            gt2 n2 (mupd s.local_updates rid (.placed op s.global_tail))
          refine LogRangeMatchesQueue_agree (fun i h1 h2 => hlogagree i (by omega)) ?_ w5
          intro r hr
          exact huagree n2 _ hc r (by simpa [activeQueue] using hr)
        · show LogRangeNoNodeId (mupd s.log s.global_tail ⟨op, node_id⟩) gt2 (s.global_tail + 1) n2
          refine LogRangeNoNodeId_extend w1 ?_ hlogtop hnid
          exact LogRangeNoNodeId_agree (fun i h1 h2 => hlogagree i h2) w6
        · intro r hr
          show ∃ o i, mupd s.local_updates rid (.placed op s.global_tail) r = some (.placed o i)
          rw [huagree n2 _ hc r (by simpa [activeQueue] using hr)]
          exact w7 r hr
      | updatedVersion q2 gt2 =>
        obtain ⟨w1, w2, w3, w4⟩ := hwf
        have hle : gt2 ≤ s.global_tail := le_trans w1 d3
        refine ⟨w1, w2, ?_, w4⟩
        show LogRangeNoNodeId (mupd s.log s.global_tail ⟨op, node_id⟩) gt2 (s.global_tail + 1) n2
        refine LogRangeNoNodeId_extend hle ?_ hlogtop hnid
        exact LogRangeNoNodeId_agree (fun i h1 h2 => hlogagree i h2) w3
  · intro n1 n2 c1 c2 hne h1 h2 r hr1 hr2
    replace h1 : mupd s.combiner node_id (.placed (queued_ops ++ [rid])) n1 = some c1 := h1
    replace h2 : mupd s.combiner node_id (.placed (queued_ops ++ [rid])) n2 = some c2 := h2
    by_cases e1 : n1 = node_id
    · subst e1
      rw [mupd_same] at h1
      cases h1
      rw [mupd_other _ _ _ _ (fun hh : n2 = n1 => hne hh.symm)] at h2
      simp only [activeQueue] at hr1
      rcases List.mem_append.mp hr1 with hq | hs
      · exact d8 n1 n2 _ c2 hne hcomb h2 r (by simpa [activeQueue] using hq) hr2
      · rw [List.mem_singleton.mp hs] at hr2
        exact (hne_of_active n2 c2 rid h2 hr2) rfl
    · rw [mupd_other _ _ _ _ e1] at h1
      by_cases e2 : n2 = node_id
      · subst e2
        rw [mupd_same] at h2
        cases h2
        simp only [activeQueue] at hr2
        rcases List.mem_append.mp hr2 with hq | hs
        · exact d8 n1 n2 c1 _ hne h1 hcomb r hr1 (by simpa [activeQueue] using hq)
        · rw [List.mem_singleton.mp hs] at hr1
          exact (hne_of_active n1 c1 rid h1 hr1) rfl
      · rw [mupd_other _ _ _ _ e2] at h2
        exact d8 n1 n2 c1 c2 hne h1 h2 r hr1 hr2

theorem inv_initState (nrInit : NRSt) (R : ℕ) :
    Inv (initState nrInit R : State UOp ROp Ret NRSt) := by
  refine ⟨?_, ?_, le_rfl, ?_, ?_, ?_, ?_, ?_⟩
  · intro k
    show (if k < R then some 0 else none).isSome ↔
      (if k < R then some CombinerState.ready else none).isSome
    split <;> simp
  · intro k
    show (if k < R then some nrInit else none).isSome ↔
      (if k < R then some CombinerState.ready else none).isSome
    split <;> simp
  · intro n v hv
    replace hv : (if n < R then some 0 else none) = some v := hv
    show v ≤ 0
    by_cases hn : n < R
    · rw [if_pos hn] at hv
      cases hv
      exact le_rfl
    · rw [if_neg hn] at hv
      cases hv
  · intro i
    show (none : Option (LogEntry UOp)).isSome ↔ i < 0
    simp
  · intro rid r hr
    replace hr : (none : Option (ReadonlyState ROp Ret)) = some r := hr
    cases hr
  · intro n c hc
    replace hc : (if n < R then some CombinerState.ready else none) = some c := hc
    split at hc
    · cases hc
      intro lv hlv
      replace hlv : (if n < R then some 0 else none) = some lv := hlv
      have hlv0 : lv = 0 := by
        by_cases hn2 : n < R
        · rw [if_pos hn2] at hlv
          exact (Option.some_inj.mp hlv).symm
        · rw [if_neg hn2] at hlv
          cases hlv
      subst hlv0
      exact LogRangeNoNodeId_ge le_rfl
    · cases hc
  · intro n1 n2 c1 c2 hne h1 h2 r hr1 hr2
    replace h1 : (if n1 < R then some CombinerState.ready else none) = some c1 := h1
    split at h1
    · cases h1
      simp [activeQueue] at hr1
    · cases h1

theorem inv_of_reachable {nrInit : NRSt} {nrUpdate : NRSt → UOp → NRSt × Ret}
    {nrRead : NRSt → ROp → Ret} {s : State UOp ROp Ret NRSt}
    (h : Reachable nrInit nrUpdate nrRead s) : Inv s := by
  induction h with
  | init R => exact inv_initState nrInit R
  | step s0 l s2 hr hs ih =>
    cases hs with
    | readonly_start rid op hfresh => exact inv_readonly_start ih hfresh
    | readonly_read_ctail rid op hrd => exact inv_readonly_read_ctail ih hrd
    | readonly_ready_to_read rid node_id op vub lh hrd hlv hge =>
      exact inv_readonly_ready_to_read ih hrd hlv hge
    | readonly_apply rid op node_id vub st hrd hcomb hrep =>
      exact inv_readonly_apply ih hrd
    | readonly_finish rid op vub node_id ret hrd => exact inv_readonly_finish ih
    | update_start rid op hfresh => exact inv_update_start ih hfresh
    | update_place_ops_in_log_one node_id rid queued_ops op hcomb hupd =>
      exact inv_update_place_ops_in_log_one ih hcomb hupd
    | update_done rid ret idx hupd hvub => exact inv_update_done ih hupd
    | update_finish rid ret idx hupd => exact inv_update_finish ih hupd
    | exec_trivial_start node_id hcomb => exact inv_exec_trivial_start ih hcomb
    | exec_load_local_version node_id queued_ops lversion hcomb hlv =>
      exact inv_exec_load_local_version ih hcomb hlv
    | exec_load_global_head node_id queued_ops lversion hcomb =>
      exact inv_exec_load_global_head ih hcomb
    | exec_dispatch_local node_id queued_ops lversion idx global_tail rid st u e
        hcomb hrep hrid hidx hupd hlog hlt hnode =>
      exact inv_exec_dispatch_local ih hcomb hrid hidx hlog hlt hnode
    | exec_dispatch_remote node_id queued_ops lversion idx global_tail st e
        hcomb hrep hlog hlt hnode =>
      exact inv_exec_dispatch_remote ih hcomb hlog hlt hnode
    | exec_update_version_upper_bound node_id queued_ops lversion idx global_tail
        hcomb heq =>
      exact inv_exec_update_version_upper_bound ih hcomb heq
    | exec_finish node_id queued_ops global_tail old_local_head hcomb hlv =>
      exact inv_exec_finish ih hcomb hlv
end
end UnboundedLog
namespace CyclicBuffer
section
variable {StoredType : Type}

theorem invA_mupd_non_appending (s : State StoredType) (n : ℕ) (c2 : CombinerState StoredType)
    (h : InvA s) (hc2 : ∀ c t, c2 ≠ .appending c t) :
    InvA { s with combiner_state := mupd s.combiner_state n c2 } := by
  obtain ⟨h1, h2⟩ := h
  constructor
  · intro n2 c t hc
    replace hc : mupd s.combiner_state n c2 n2 = some (.appending c t) := hc
    by_cases hn : n2 = n
    · subst hn
      rw [mupd_same] at hc
      exact absurd (Option.some_inj.mp hc).symm (fun hx => hc2 c t hx.symm)
    · rw [mupd_other _ _ _ _ hn] at hc
      exact h1 n2 c t hc
  · intro i j ci ti cj tj hne hi hj
    replace hi : mupd s.combiner_state n c2 i = some (.appending ci ti) := hi
    replace hj : mupd s.combiner_state n c2 j = some (.appending cj tj) := hj
    by_cases hin : i = n
    · subst hin
      rw [mupd_same] at hi
      exact absurd (Option.some_inj.mp hi).symm (fun hx => hc2 ci ti hx.symm)
    · rw [mupd_other _ _ _ _ hin] at hi
      by_cases hjn : j = n
      · subst hjn
        rw [mupd_same] at hj
        exact absurd (Option.some_inj.mp hj).symm (fun hx => hc2 cj tj hx.symm)
      · rw [mupd_other _ _ _ _ hjn] at hj
        exact h2 i j ci ti cj tj hne hi hj

theorem invA_step {sti : StoredType → ℤ → Prop} {s s2 : State StoredType}
    {l : Label StoredType} (h : InvA s) (hs : Step sti s l s2) : InvA s2 := by
  cases hs with
  | reader_do_start node_id lh hlh hcomb =>
    exact invA_mupd_non_appending s node_id _ h (fun c t hx => by simp at hx)
  | reader_do_enter node_id start hcomb =>
    exact invA_mupd_non_appending s node_id _ h (fun c t hx => by simp at hx)
  | reader_do_guard node_id start stop cur val hcomb halive hval =>
    exact invA_mupd_non_appending s node_id _ h (fun c t hx => by simp at hx)
  | reader_do_unguard node_id start stop cur val hcomb =>
    exact invA_mupd_non_appending s node_id _ h (fun c t hx => by simp at hx)
  | reader_do_finish node_id start stop cur hcomb hlh =>
    obtain ⟨h1, h2⟩ := invA_mupd_non_appending s node_id
      (CombinerState.idle) h (fun c t hx => by simp at hx)
    exact ⟨h1, h2⟩
  | reader_do_abort node_id r hcomb hr =>
    exact invA_mupd_non_appending s node_id _ h (fun c t hx => by simp at hx)
  | init_advance_head node_id lh hlh hcomb =>
    exact invA_mupd_non_appending s node_id _ h (fun c t hx => by simp at hx)
  | step_advance_head node_id idx mh lh hcomb hidx hlh =>
    exact invA_mupd_non_appending s node_id _ h (fun c t hx => by simp at hx)
  | abandon_advance_head node_id idx mh hcomb =>
    exact invA_mupd_non_appending s node_id _ h (fun c t hx => by simp at hx)
  | finish_advance_head node_id idx mh hcomb hidx =>
    obtain ⟨h1, h2⟩ := invA_mupd_non_appending s node_id
      (CombinerState.idle) h (fun c t hx => by simp at hx)
    exact ⟨h1, h2⟩
  | init_advance_tail node_id lh0 hlh0 hcomb =>
    exact invA_mupd_non_appending s node_id _ h (fun c t hx => by simp at hx)
  | abandon_advance_tail node_id oh hcomb =>
    exact invA_mupd_non_appending s node_id _ h (fun c t hx => by simp at hx)
  | finish_advance_tail node_id new_tail oh hcomb hreq =>
    obtain ⟨h1, h2⟩ := h
    constructor
    · intro n2 c t hc
      replace hc : mupd s.combiner_state node_id (.appending s.tail new_tail) n2 = some (.appending c t) := hc
      show t ≤ new_tail
      by_cases hn : n2 = node_id
      · subst hn
        rw [mupd_same] at hc
        cases hc
        exact le_rfl
      · rw [mupd_other _ _ _ _ hn] at hc
        exact le_trans (h1 n2 c t hc) hreq.1
    · intro i j ci ti cj tj hne hi hj
      replace hi : mupd s.combiner_state node_id (.appending s.tail new_tail) i = some (.appending ci ti) := hi
      replace hj : mupd s.combiner_state node_id (.appending s.tail new_tail) j = some (.appending cj tj) := hj
      by_cases hin : i = node_id
      · subst hin
        rw [mupd_same] at hi
        cases hi
        rw [mupd_other _ _ _ _ (fun hh : j = i => hne hh.symm)] at hj
        exact Or.inr (h1 j cj tj hj)
      · rw [mupd_other _ _ _ _ hin] at hi
        by_cases hjn : j = node_id
        · subst hjn
          rw [mupd_same] at hj
          cases hj
          exact Or.inl (h1 i ci ti hi)
        · rw [mupd_other _ _ _ _ hjn] at hj
          exact h2 i j ci ti cj tj hne hi hj
  | append_flip_bit node_id cur_idx tail dep bit hcomb hbit hsti =>
    obtain ⟨h1, h2⟩ := h
    constructor
    · intro n2 c t hc
      replace hc : mupd s.combiner_state node_id (.appending (cur_idx + 1) tail) n2 = some (.appending c t) := hc
      show t ≤ s.tail
      by_cases hn : n2 = node_id
      · subst hn
        rw [mupd_same] at hc
        cases hc
        exact h1 n2 _ _ hcomb
      · rw [mupd_other _ _ _ _ hn] at hc
        exact h1 n2 c t hc
    · intro i j ci ti cj tj hne hi hj
      replace hi : mupd s.combiner_state node_id (.appending (cur_idx + 1) tail) i = some (.appending ci ti) := hi
      replace hj : mupd s.combiner_state node_id (.appending (cur_idx + 1) tail) j = some (.appending cj tj) := hj
      by_cases hin : i = node_id
      · subst hin
        rw [mupd_same] at hi
        cases hi
        rw [mupd_other _ _ _ _ (fun hh : j = i => hne hh.symm)] at hj
        rcases h2 i j cur_idx tail cj tj hne hcomb hj with hd | hd
        · exact Or.inl hd
        · exact Or.inr (by omega)
      · rw [mupd_other _ _ _ _ hin] at hi
        by_cases hjn : j = node_id
        · subst hjn
          rw [mupd_same] at hj
          cases hj
          rcases h2 i j ci ti cur_idx tail hne hi hcomb with hd | hd
          · exact Or.inl (by omega)
          · exact Or.inr hd
        · rw [mupd_other _ _ _ _ hjn] at hj
          exact h2 i j ci ti cj tj hne hi hj
  | finish_appending node_id cur_idx tail hcomb heq =>
    exact invA_mupd_non_appending s node_id _ h (fun c t hx => by simp at hx)

theorem invA_of_reachable {sti : StoredType → ℤ → Prop} {s : State StoredType}
    (h : Reachable sti s) : InvA s := by
  induction h with
  | init B R contents hcont =>
    constructor
    · intro n c t hc
      replace hc : (if n < R then some (CombinerState.idle : CombinerState StoredType) else none) = some (.appending c t) := hc
      by_cases hn : n < R
      · rw [if_pos hn] at hc
        cases hc
      · rw [if_neg hn] at hc
        cases hc
    · intro i j ci ti cj tj hne hi hj
      replace hi : (if i < R then some (CombinerState.idle : CombinerState StoredType) else none) = some (.appending ci ti) := hi
      by_cases hn : i < R
      · rw [if_pos hn] at hi
        cases hi
      · rw [if_neg hn] at hi
        cases hi
  | step s l s2 hr hs ih => exact invA_step ih hs
end
end CyclicBuffer
namespace UnboundedLog

theorem uwReach0 : Reachable 0 uwUpd uwRead uwState0 := Reachable.init 1

theorem uwReach3 : Reachable 0 uwUpd uwRead uwState3 := by
  have h1 : Reachable 0 uwUpd uwRead uwState1 :=
    Reachable.step _ _ _ uwReach0 (Step.exec_trivial_start uwState0 0 rfl)
  have h2 : Reachable 0 uwUpd uwRead uwState2 :=
    Reachable.step _ _ _ h1 (Step.exec_load_local_version uwState1 0 [] 0 rfl rfl)
  exact Reachable.step _ _ _ h2 (Step.exec_load_global_head uwState2 0 [] 0 rfl)

theorem uwrStep23 : Step uwUpd uwRead uwrState2 (.readonly_ready_to_read 0 0) uwrState3 :=
  Step.readonly_ready_to_read uwrState2 0 0 0 0 0 rfl rfl (le_refl 0)

theorem uwrReach3 : Reachable 0 uwUpd uwRead uwrState3 := by
  have h1 : Reachable 0 uwUpd uwRead uwrState1 :=
    Reachable.step _ _ _ uwReach0 (Step.readonly_start uwState0 0 0 rfl)
  have h2 : Reachable 0 uwUpd uwRead uwrState2 :=
    Reachable.step _ _ _ h1 (Step.readonly_read_ctail uwrState1 0 0 rfl)
  exact Reachable.step _ _ _ h2 uwrStep23

/-- Claim C2: a readonly request in `VersionUpperBound{op, v}` moves to
`ReadyToRead{op, n, v}` only when `local_versions[n] >= v` holds at that
step, and in every reachable state every readonly request in `ReadyToRead`
or `Done` with horizon `v` on node `n` has `v <= version_upper_bound` and
`v <=` the current local version of `n`. -/
theorem claim_C2 {UOp ROp Ret NRSt : Type} (nrInit : NRSt)
    (nrUpdate : NRSt → UOp → NRSt × Ret) (nrRead : NRSt → ROp → Ret) :
    (∀ (s s2 : State UOp ROp Ret NRSt) (rid node_id : ℕ),
      Step nrUpdate nrRead s (.readonly_ready_to_read rid node_id) s2 →
      ∃ op version_upper_bound local_head,
        s.local_reads rid = some (.versionUpperBound op version_upper_bound) ∧
        s.local_versions node_id = some local_head ∧
        version_upper_bound ≤ local_head ∧
        s2.local_reads rid = some (.readyToRead op node_id version_upper_bound)) ∧
    (∀ s : State UOp ROp Ret NRSt, Reachable nrInit nrUpdate nrRead s →
      ∀ (rid : ℕ) (op : ROp) (node_id v : ℕ),
        (s.local_reads rid = some (.readyToRead op node_id v) →
          v ≤ s.version_upper_bound ∧ v ≤ current_local_version s node_id) ∧
        (∀ ret, s.local_reads rid = some (.done op ret node_id v) →
          v ≤ s.version_upper_bound ∧ v ≤ current_local_version s node_id)) := by
  constructor
  · intro s s2 rid node_id hstep
    cases hstep with
    | readonly_ready_to_read rid node_id op vub lh hrd hlv hge =>
      exact ⟨op, vub, lh, hrd, hlv, hge, mupd_same _ _ _⟩
  · intro s hr rid op node_id v
    have hinv := inv_of_reachable hr
    constructor
    · intro hrd
      have hw := hinv.reads_wf rid _ hrd
      exact ⟨hw.2.1, hw.2.2⟩
    · intro ret hrd
      have hw := hinv.reads_wf rid _ hrd
      exact ⟨hw.2.1, hw.2.2⟩

theorem claim_C2_witness :
    (∃ op version_upper_bound local_head,
      uwrState2.local_reads 0 = some (.versionUpperBound op version_upper_bound) ∧
      uwrState2.local_versions 0 = some local_head ∧
      version_upper_bound ≤ local_head ∧
      uwrState3.local_reads 0 = some (.readyToRead op 0 version_upper_bound)) ∧
    ((0 : ℕ) ≤ uwrState3.version_upper_bound ∧
      (0 : ℕ) ≤ current_local_version uwrState3 0) :=
  ⟨(claim_C2 0 uwUpd uwRead).1 uwrState2 uwrState3 0 0 uwrStep23,
   ((claim_C2 0 uwUpd uwRead).2 uwrState3 uwrReach3 0 0 0 0).1 rfl⟩

/-- Claim C3: in every reachable state, for a combiner of node `n` in
`Loop{queued_ops, lversion, idx, global_tail}`: if `lversion < global_tail`
and the log entry at `lversion` has `node_id == n` then
`idx < |queued_ops|`, and if `lversion == global_tail` then
`idx == |queued_ops|`. -/
theorem claim_C3 {UOp ROp Ret NRSt : Type} (nrInit : NRSt)
    (nrUpdate : NRSt → UOp → NRSt × Ret) (nrRead : NRSt → ROp → Ret)
    (s : State UOp ROp Ret NRSt) (hr : Reachable nrInit nrUpdate nrRead s)
    (node_id : ℕ) (queued_ops : List ℕ) (lversion idx global_tail : ℕ)
    (hcomb : s.combiner node_id = some (.loop queued_ops lversion idx global_tail)) :
    (lversion < global_tail → ∀ e, s.log lversion = some e →
      e.node_id = node_id → idx < queued_ops.length) ∧
    (lversion = global_tail → idx = queued_ops.length) := by
  have hw := (inv_of_reachable hr).combiner_wf node_id _ hcomb
  obtain ⟨h1, h2, h3, h4, h5, h6, h7, h8⟩ := hw
  constructor
  · intro hlt e he hen
    exact (LogRangeMatchesQueue_step_local h5 hlt he hen).1
  · intro heq
    exact LogRangeMatchesQueue_len h5 heq

theorem claim_C3_witness :
    ((0 : ℕ) < 0 → ∀ e, uwState3.log 0 = some e → e.node_id = 0 →
      (0 : ℕ) < ([] : List ℕ).length) ∧
    ((0 : ℕ) = 0 → (0 : ℕ) = ([] : List ℕ).length) :=
  claim_C3 0 uwUpd uwRead uwState3 uwReach3 0 [] 0 0 0 rfl

/-- Claim C4: in every reachable state, for a combiner of node `n` in
`Loop{queued_ops, lversion, idx, snap}`: `queued_ops[idx..]` matches, in
order, exactly the log entries of `[lversion, snap)` with `node_id == n`
(`LogRangeMatchesQueue`), and `[snap, global_tail)` contains no entry with
`node_id == n` (`LogRangeNoNodeId`). -/
theorem claim_C4 {UOp ROp Ret NRSt : Type} (nrInit : NRSt)
    (nrUpdate : NRSt → UOp → NRSt × Ret) (nrRead : NRSt → ROp → Ret)
    (s : State UOp ROp Ret NRSt) (hr : Reachable nrInit nrUpdate nrRead s)
    (node_id : ℕ) (queued_ops : List ℕ) (lversion idx global_tail : ℕ)
    (hcomb : s.combiner node_id = some (.loop queued_ops lversion idx global_tail)) :
    LogRangeMatchesQueue queued_ops s.log idx lversion global_tail node_id
      s.local_updates ∧
    LogRangeNoNodeId s.log global_tail s.global_tail node_id := by
  have hw := (inv_of_reachable hr).combiner_wf node_id _ hcomb
  obtain ⟨h1, h2, h3, h4, h5, h6, h7, h8⟩ := hw
  exact ⟨h5, h6⟩

theorem claim_C4_witness :
    LogRangeMatchesQueue ([] : List ℕ) uwState3.log 0 0 0 0 uwState3.local_updates ∧
    LogRangeNoNodeId uwState3.log 0 uwState3.global_tail 0 :=
  claim_C4 0 uwUpd uwRead uwState3 uwReach3 0 [] 0 0 0 rfl

/-- Claim C9: `version_upper_bound` never decreases across any transition;
`exec_update_version_upper_bound` sets it to the maximum of its old value
and the combiner's global-tail snapshot, and no other transition modifies
it. -/
theorem claim_C9 {UOp ROp Ret NRSt : Type}
    (nrUpdate : NRSt → UOp → NRSt × Ret) (nrRead : NRSt → ROp → Ret)
    (s : State UOp ROp Ret NRSt) (l : Label UOp ROp Ret) (s2 : State UOp ROp Ret NRSt)
    (hstep : Step nrUpdate nrRead s l s2) :
    s.version_upper_bound ≤ s2.version_upper_bound ∧
    (∀ node_id, l = .exec_update_version_upper_bound node_id →
      ∃ queued_ops idx snap,
        s.combiner node_id = some (.loop queued_ops snap idx snap) ∧
        s2.version_upper_bound = max s.version_upper_bound snap) ∧
    ((∀ node_id, l ≠ .exec_update_version_upper_bound node_id) →
      s2.version_upper_bound = s.version_upper_bound) := by
  cases hstep
  case exec_update_version_upper_bound node_id queued_ops lversion idx global_tail hcomb heq =>
    subst heq
    refine ⟨?_, ?_, ?_⟩
    · show s.version_upper_bound ≤
        if s.version_upper_bound ≥ lversion then s.version_upper_bound else lversion
      split <;> omega
    · intro nid h
      injection h with hnid
      subst hnid
      refine ⟨queued_ops, idx, lversion, hcomb, ?_⟩
      show (if s.version_upper_bound ≥ lversion then s.version_upper_bound else lversion) =
        max s.version_upper_bound lversion
      split <;> omega
    · intro hall
      exact absurd rfl (hall node_id)
  all_goals
    refine ⟨le_rfl, ?_, fun _ => rfl⟩
    intro nid h
    cases h

theorem claim_C9_witness :
    uwState3.version_upper_bound ≤ uwState4.version_upper_bound :=
  (claim_C9 uwUpd uwRead uwState3 (.exec_update_version_upper_bound 0) uwState4
    (Step.exec_update_version_upper_bound uwState3 0 [] 0 0 0 rfl rfl)).1

/-- Claim C10: in every reachable state, every replica's local version is
bounded by the published version upper bound. -/
theorem claim_C10 {UOp ROp Ret NRSt : Type} (nrInit : NRSt)
    (nrUpdate : NRSt → UOp → NRSt × Ret) (nrRead : NRSt → ROp → Ret)
    (s : State UOp ROp Ret NRSt) (hr : Reachable nrInit nrUpdate nrRead s)
    (n v : ℕ) (hlv : s.local_versions n = some v) :
    v ≤ s.version_upper_bound :=
  (inv_of_reachable hr).lv_le_vub n v hlv

theorem claim_C10_witness : (0 : ℕ) ≤ uwState0.version_upper_bound :=
  claim_C10 0 uwUpd uwRead uwState0 uwReach0 0 0 rfl

/-- Claim C8 as stated is false: `update_place_ops_in_log_one` fires from a
state in which `rid` is already in `queued_ops` (and the unbounded-log
state has no `head`/`buffer_size` against which a space precondition could
even be stated). -/
theorem claim_C8_counterexample :
    ¬ (∀ (s s2 : State ℕ ℕ ℕ ℕ) (node_id rid : ℕ) (queued_ops : List ℕ) (op : ℕ),
        Step uwUpd uwRead s (.update_place_ops_in_log_one node_id rid) s2 →
        s.combiner node_id = some (.placed queued_ops) →
        s.local_updates rid = some (.init op) → rid ∉ queued_ops) := by
  intro hall
  exact hall cexPlaceState cexPlaceState2 0 5 [5] 0
    (Step.update_place_ops_in_log_one cexPlaceState 0 5 [5] 0 rfl rfl) rfl rfl
    (List.mem_singleton_self 5)

/-- Claim C8, amended: the `append_one` step of the unbounded log
(`update_place_ops_in_log_one`) is enabled exactly when the combiner of
`node_id` is in `Placed{queued_ops}` and request `rid` is in `Init{op}`
(no space bound and no `rid ∉ queued_ops` precondition exists at this
layer), and its effect is to increment `global_tail` by one, store
`LogEntry{op, node_id}` at the old `global_tail`, move `rid` to
`Placed{op, idx = old_global_tail}`, and push `rid` onto `queued_ops`. -/
theorem claim_C8_amended {UOp ROp Ret NRSt : Type}
    (nrUpdate : NRSt → UOp → NRSt × Ret) (nrRead : NRSt → ROp → Ret)
    (s : State UOp ROp Ret NRSt) (node_id rid : ℕ) (s2 : State UOp ROp Ret NRSt) :
    Step nrUpdate nrRead s (.update_place_ops_in_log_one node_id rid) s2 ↔
    ∃ queued_ops op,
      s.combiner node_id = some (.placed queued_ops) ∧
      s.local_updates rid = some (.init op) ∧
      s2 = { s with
        global_tail := s.global_tail + 1
        log := mupd s.log s.global_tail ⟨op, node_id⟩
        local_updates := mupd s.local_updates rid (.placed op s.global_tail)
        combiner := mupd s.combiner node_id (.placed (queued_ops ++ [rid])) } := by
  constructor
  · intro h
    cases h with
    | update_place_ops_in_log_one node_id rid queued_ops op hcomb hupd =>
      exact ⟨queued_ops, op, hcomb, hupd, rfl⟩
  · rintro ⟨queued_ops, op, hcomb, hupd, rfl⟩
    exact Step.update_place_ops_in_log_one s node_id rid queued_ops op hcomb hupd

theorem claim_C8_amended_witness :
    Step uwUpd uwRead cexPlaceState (.update_place_ops_in_log_one 0 5) cexPlaceState2 :=
  (claim_C8_amended uwUpd uwRead cexPlaceState 0 5 cexPlaceState2).mpr
    ⟨[5], 0, rfl, rfl, rfl⟩
end UnboundedLog
namespace CyclicBuffer

theorem cbContents1_dom : ∀ i : ℤ, (cbContents1 i).isSome ↔ (-(1 : ℤ) ≤ i ∧ i < 0) := by
  intro i
  simp only [cbContents1]
  by_cases h : i = -1
  · subst h
    simp
  · rw [if_neg h]
    simp
    omega

theorem cbContents4_dom : ∀ i : ℤ, (cbContents4 i).isSome ↔ (-(4 : ℤ) ≤ i ∧ i < 0) := by
  intro i
  simp only [cbContents4]
  by_cases h : -4 ≤ i ∧ i < 0
  · rw [if_pos h]
    simp
    omega
  · rw [if_neg h]
    simp
    omega

theorem cbBug2_reachable : Reachable stiTrivial cbBug2 := by
  have h0 : Reachable stiTrivial cbBug0 := Reachable.init 1 1 cbContents1 cbContents1_dom
  have h1 : Reachable stiTrivial cbBug1 :=
    Reachable.step _ _ _ h0 (Step.init_advance_tail cbBug0 0 0 rfl rfl)
  exact Reachable.step _ _ _ h1
    (Step.finish_advance_tail cbBug1 0 0 0 rfl ⟨by decide, by decide⟩)

theorem cbBug3_step : Step stiTrivial cbBug2 (.append_flip_bit 0 ()) cbBug3 :=
  Step.append_flip_bit cbBug2 0 0 0 () false rfl rfl trivial

theorem cbBug3_reachable : Reachable stiTrivial cbBug3 :=
  Reachable.step _ _ _ cbBug2_reachable cbBug3_step

/-- Claim C6 fails on the code: `cbBug3` is reachable, yet its contents
map holds an entry at logical index 0 with `tail = 0`, contradicting
"contents holds no entry at any L >= tail" (the second conjunct of the
source invariant `inv_buffer_contents`), because `append_flip_bit` is
enabled at `cur_idx = tail`. -/
theorem claim_C6_code_bug :
    Reachable stiTrivial cbBug3 ∧ cbBug3.tail = 0 ∧ (cbBug3.contents 0).isSome :=
  ⟨cbBug3_reachable, rfl, rfl⟩

/-- Claim C7 fails on the code: from the reachable state `cbBug2` whose
combiner 0 is `Appending{cur_idx = 0, tail = 0}`, the `append_flip_bit`
step fires although the claimed precondition `cur_idx < tail` is false
(the alive-bit polarity `require` is commented out in the source and no
`cur_idx < tail` requirement exists). -/
theorem claim_C7_code_bug :
    Reachable stiTrivial cbBug2 ∧
    Step stiTrivial cbBug2 (.append_flip_bit 0 ()) cbBug3 ∧
    cbBug2.combiner_state 0 = some (.appending 0 0) ∧
    ¬ (0 < cbBug2.tail) :=
  ⟨cbBug2_reachable, cbBug3_step, rfl, by decide⟩

theorem cbHd12_reachable : Reachable stiTrivial cbHd12 := by
  have h0 : Reachable stiTrivial cbHd0 := Reachable.init 1 2 cbContents1 cbContents1_dom
  have h1 : Reachable stiTrivial cbHd1 :=
    Reachable.step _ _ _ h0 (Step.init_advance_tail cbHd0 0 0 rfl rfl)
  have h2 : Reachable stiTrivial cbHd2 :=
    Reachable.step _ _ _ h1
      (Step.finish_advance_tail cbHd1 0 1 0 rfl ⟨by decide, by decide⟩)
  have h3 : Reachable stiTrivial cbHd3 :=
    Reachable.step _ _ _ h2 (Step.append_flip_bit cbHd2 0 0 1 () false rfl rfl trivial)
  have h4 : Reachable stiTrivial cbHd4 :=
    Reachable.step _ _ _ h3 (Step.finish_appending cbHd3 0 1 1 rfl rfl)
  have h5 : Reachable stiTrivial cbHd5 :=
    Reachable.step _ _ _ h4 (Step.reader_do_start cbHd4 1 0 rfl rfl)
  have h6 : Reachable stiTrivial cbHd6 :=
    Reachable.step _ _ _ h5 (Step.reader_do_enter cbHd5 1 0 rfl)
  have h7 : Reachable stiTrivial cbHd7 :=
    Reachable.step _ _ _ h6
      (Step.reader_do_guard cbHd6 1 0 1 0 () rfl rfl (fun v _ => rfl))
  have h8 : Reachable stiTrivial cbHd8 :=
    Reachable.step _ _ _ h7 (Step.reader_do_unguard cbHd7 1 0 1 0 () rfl)
  have h9 : Reachable stiTrivial cbHd9 :=
    Reachable.step _ _ _ h8 (Step.reader_do_finish cbHd8 1 0 1 1 rfl rfl)
  have h10 : Reachable stiTrivial cbHd10 :=
    Reachable.step _ _ _ h9 (Step.init_advance_head cbHd9 1 1 rfl rfl)
  have h11 : Reachable stiTrivial cbHd11 :=
    Reachable.step _ _ _ h10 (Step.step_advance_head cbHd10 1 1 1 1 rfl (by decide) rfl)
  exact Reachable.step _ _ _ h11 (Step.finish_advance_head cbHd11 1 (1 + 1) (min 1 1) rfl rfl)

/-- Claim C1 fails on the code: the reachable state `cbHd12` has
`head = 1` but `local_versions[0] = 0`, so `head <= local_versions[n]`
does not hold for every registered replica — `init_advance_head` seeds the
minimum scan with the caller's own local head and starts at index 1,
skipping replica 0. -/
theorem claim_C1_code_bug :
    Reachable stiTrivial cbHd12 ∧ cbHd12.local_heads 0 = some 0 ∧
      ¬ (cbHd12.head ≤ 0) :=
  ⟨cbHd12_reachable, rfl, by decide⟩

theorem cbW4_reachable : Reachable stiTrivial cbW4 := by
  have h0 : Reachable stiTrivial cbW0 := Reachable.init 4 2 cbContents4 cbContents4_dom
  have h1 : Reachable stiTrivial cbW1 :=
    Reachable.step _ _ _ h0 (Step.init_advance_tail cbW0 0 0 rfl rfl)
  have h2 : Reachable stiTrivial cbW2 :=
    Reachable.step _ _ _ h1
      (Step.finish_advance_tail cbW1 0 2 0 rfl ⟨by decide, by decide⟩)
  have h3 : Reachable stiTrivial cbW3 :=
    Reachable.step _ _ _ h2 (Step.init_advance_tail cbW2 1 0 rfl rfl)
  exact Reachable.step _ _ _ h3
    (Step.finish_advance_tail cbW3 1 3 0 rfl ⟨by decide, by decide⟩)

/-- Claim C5: in every reachable state of the cyclic buffer, the write
ranges `[cur_idx_i, tail_i)` and `[cur_idx_j, tail_j)` of two distinct
`Appending` combiners are disjoint. -/
theorem claim_C5 {StoredType : Type} (sti : StoredType → ℤ → Prop)
    (s : State StoredType) (hr : Reachable sti s) (i j ci ti cj tj : ℕ)
    (hne : i ≠ j)
    (hi : s.combiner_state i = some (.appending ci ti))
    (hj : s.combiner_state j = some (.appending cj tj)) :
    ∀ x : ℕ, ¬ (ci ≤ x ∧ x < ti ∧ cj ≤ x ∧ x < tj) := by
  have hinv := invA_of_reachable hr
  rcases hinv.appending_separated i j ci ti cj tj hne hi hj with hd | hd <;>
    (intro x hx; omega)

theorem claim_C5_witness :
    ¬ ((0 : ℕ) ≤ 1 ∧ (1 : ℕ) < 2 ∧ (2 : ℕ) ≤ 1 ∧ (1 : ℕ) < 3) :=
  claim_C5 stiTrivial cbW4 cbW4_reachable 0 1 0 2 2 3 (by decide) rfl rfl 1
end CyclicBuffer
